import Mathlib

/-!
# wt: session manager over git worktrees

A shallow embedding of `internal/git/git.go` and `internal/session/session.go`.

* Go strings are modelled by `String`.  Every string operation the program uses
  (`HasPrefix`, `TrimPrefix`, `Join`, `Base`, line scanning) compares or splits on
  ASCII bytes only, so on valid UTF-8 text the byte-level and the character-level
  readings coincide.
* A Go `error` is modelled by its message (`Except String α`).
* The program talks to the outside world through `exec.Command("git", ...)`,
  `os.UserHomeDir`, `os.MkdirAll` and `os.Stat`.  These are the fields of `Env`;
  the state `Sys` pairs the outside world with the log of git command lines run.
* Console output (`fmt.Print*`) is not part of the state.
-/

deriving instance DecidableEq for Except

/-! ## Go standard library: package `strings` -/

namespace strings

/-- Embeds `strings.HasPrefix(s, pre)`. -/
def HasPrefix (s pre : String) : Bool :=
  pre.data.isPrefixOf s.data

/-- Embeds `strings.TrimPrefix(s, pre)`: `s` without the leading `pre`, or `s` itself. -/
def TrimPrefix (s pre : String) : String :=
  if HasPrefix s pre then ⟨s.data.drop pre.data.length⟩ else s

/-- Embeds `strings.Join(elems, sep)`. -/
def Join : List String → String → String
  | [], _ => ""
  | [a], _ => a
  | a :: b :: rest, sep => a ++ sep ++ Join (b :: rest) sep

/-- Embeds `unicode.IsSpace`. -/
def isSpace (c : Char) : Bool :=
  c = '\t' || c = '\n' || c.toNat = 0x0B || c.toNat = 0x0C || c = '\r' || c = ' ' ||
  c.toNat = 0x85 || c.toNat = 0xA0 || c.toNat = 0x1680 ||
  (0x2000 ≤ c.toNat && c.toNat ≤ 0x200A) ||
  c.toNat = 0x2028 || c.toNat = 0x2029 || c.toNat = 0x202F || c.toNat = 0x205F ||
  c.toNat = 0x3000

/-- Embeds `strings.TrimSpace(s)`. -/
def TrimSpace (s : String) : String :=
  ⟨(s.data.dropWhile isSpace).rdropWhile isSpace⟩

end strings

/-! ## Go standard library: package `path/filepath` (Unix) -/

namespace filepath

/-- Pieces of a character list between occurrences of `sep`. -/
def splitOnChar (sep : Char) : List Char → List (List Char)
  | [] => [[]]
  | c :: cs =>
    if c = sep then [] :: splitOnChar sep cs
    else
      match splitOnChar sep cs with
      | [] => [[c]]
      | l :: ls => (c :: l) :: ls

/-- Embeds `filepath.Base(path)`: the last element of the path, after trailing
slashes are removed; `"."` for the empty path and `"/"` for a path of slashes. -/
def Base (path : String) : String :=
  if path = "" then "."
  else
    let stripped := path.data.rdropWhile (fun c => c = '/')
    let last := stripped.rtakeWhile (fun c => c ≠ '/')
    if last = [] then "/" else ⟨last⟩

/-- One element of the lexical processing of `filepath.Clean`; `out` holds the
elements kept so far, the most recent first. -/
def cleanStep (rooted : Bool) (out : List String) (c : String) : List String :=
  if c = "" ∨ c = "." then out
  else if c = ".." then
    match out with
    | [] => if rooted then [] else [".."]
    | top :: rest => if top = ".." then (if rooted then out else ".." :: out) else rest
  else c :: out

/-- Embeds `filepath.Clean(path)`: separators collapsed, `.` elements dropped, inner
`..` elements resolved against their parent, `..` at the root dropped. -/
def Clean (path : String) : String :=
  if path = "" then "."
  else
    let rooted := path.data.head? = some '/'
    let comps := (splitOnChar '/' path.data).map String.mk
    let out := comps.foldl (cleanStep rooted) []
    let body := strings.Join out.reverse "/"
    let r := (if rooted then "/" else "") ++ body
    if r = "" then "." else r

/-- Embeds `filepath.Join(a, b)`: empty elements are ignored and the result is cleaned. -/
def Join (a b : String) : String :=
  if a ≠ "" then Clean (a ++ "/" ++ b)
  else if b ≠ "" then Clean b
  else ""

/-- Tells whether `path` lies under the directory `dir`, read on the text of the two
paths (git prints worktree paths in absolute, cleaned form): `path` continues `dir`
after a separator. -/
def liesUnder (dir path : String) : Bool :=
  strings.HasPrefix path (if dir.data.getLast? = some '/' then dir else dir ++ "/")

/-- A path element that `Clean` keeps as it is: not empty, not `.`, not `..`, and
without a separator. -/
def plainElem (c : String) : Prop :=
  c ≠ "" ∧ c ≠ "." ∧ c ≠ ".." ∧ '/' ∉ c.data

/-- The shape of the elements `Clean` has kept so far (most recent first): plain
elements on top of a run of `..` elements, the run being empty for a rooted path. -/
def cleanStack (rooted : Bool) (out : List String) : Prop :=
  ∃ body k, out = body ++ List.replicate k ".." ∧ (∀ c ∈ body, plainElem c) ∧
    (rooted = true → k = 0)

end filepath

/-! ## Go standard library: `bufio.Scanner` with the default `ScanLines` split -/

namespace bufio

/-- The largest token a `Scanner` with the default buffer delivers is below this size. -/
def MaxScanTokenSize : Nat := 64 * 1024

/-- The input cut at every line feed; a final piece with no line feed is a line of
its own unless it is empty. -/
def rawLines : List Char → List (List Char)
  | [] => []
  | c :: cs =>
    if c = '\n' then [] :: rawLines cs
    else
      match rawLines cs with
      | [] => [[c]]
      | l :: ls => (c :: l) :: ls

/-- Embeds `dropCR`: one trailing carriage return is removed. -/
def dropCR (l : List Char) : List Char :=
  if l.getLast? = some '\r' then l.dropLast else l

/-- The tokens `scanner.Text()` yields while `scanner.Scan()` is true: the lines of
the input without their end-of-line marker.  `Scan` reports false at the first
line of `MaxScanTokenSize` bytes or more (the token does not fit the buffer). -/
def scanLines (input : String) : List String :=
  ((rawLines input.data).takeWhile
      (fun l => decide ((String.mk l).utf8ByteSize < MaxScanTokenSize))).map
    (fun l => String.mk (dropCR l))

/-- A line that survives scanning unchanged: no line feed inside, no carriage return
at the end, and below the token limit. -/
def lineOk (l : String) : Prop :=
  '\n' ∉ l.data ∧ l.data.getLast? ≠ some '\r' ∧ l.utf8ByteSize < MaxScanTokenSize

end bufio

/-! ## The outside world -/

/-- Result of running one external command to completion. -/
structure CmdResult where
  /-- The value `cmd.Run()` returns: `none` for exit status zero. -/
  err : Option String
  /-- What `cmd.Output()` captures. -/
  stdout : String
  /-- What `cmd.CombinedOutput()` captures. -/
  combined : String
deriving DecidableEq, Repr

/-- The operating-system services the program calls, over a world of type `σ`. -/
structure Env (σ : Type) where
  /-- Runs `exec.Command("git", args...)` in the current directory. -/
  git : List String → σ → CmdResult × σ
  /-- Behaves as `os.UserHomeDir()`: it reads the environment variable `HOME` of
  the process, which neither the program nor a child process changes. -/
  UserHomeDir : Except String String
  /-- Behaves as `os.MkdirAll(path, 0755)`; `none` is the nil error. -/
  MkdirAll : String → σ → Option String × σ
  /-- Tells whether `os.Stat(path)` returns a nil error. -/
  Stat : String → σ → Bool

/-- The world together with the git command lines run so far, oldest first. -/
structure Sys (σ : Type) where
  world : σ
  log : List (List String)
deriving DecidableEq, Repr

/-- Runs one git command and records it. -/
def runGit {σ : Type} (env : Env σ) (args : List String) (s : Sys σ) : CmdResult × Sys σ :=
  let r := env.git args s.world
  (r.1, { world := r.2, log := s.log ++ [args] })

/-! ## Package `git` -/

namespace git

/-- Embeds `git.Worktree`. -/
structure Worktree where
  Path : String
  Head : String
  Branch : String
deriving DecidableEq, Repr

/-- Embeds `GetRepoRoot`. -/
def GetRepoRoot {σ : Type} (env : Env σ) (s : Sys σ) : Except String String × Sys σ :=
  let r := runGit env ["rev-parse", "--show-toplevel"] s
  match r.1.err with
  | some e => (.error ("not in a git repository: " ++ e), r.2)
  | none => (.ok (strings.TrimSpace r.1.stdout), r.2)

/-- Embeds `GetRepoName`. -/
def GetRepoName {σ : Type} (env : Env σ) (s : Sys σ) : Except String String × Sys σ :=
  match GetRepoRoot env s with
  | (.error e, s1) => (.error e, s1)
  | (.ok root, s1) => (.ok (filepath.Base root), s1)

/-- Embeds `GetCurrentBranch`. -/
def GetCurrentBranch {σ : Type} (env : Env σ) (s : Sys σ) : Except String String × Sys σ :=
  let r := runGit env ["rev-parse", "--abbrev-ref", "HEAD"] s
  match r.1.err with
  | some e => (.error ("failed to get current branch: " ++ e), r.2)
  | none => (.ok (strings.TrimSpace r.1.stdout), r.2)

/-- Embeds `FetchOrigin`. -/
def FetchOrigin {σ : Type} (env : Env σ) (s : Sys σ) : Except String Unit × Sys σ :=
  let r := runGit env ["fetch", "origin"] s
  match r.1.err with
  | some e => (.error ("failed to fetch from origin: " ++ e), r.2)
  | none => (.ok (), r.2)

/-- Embeds `FastForwardBranch`. -/
def FastForwardBranch {σ : Type} (env : Env σ) (branch : String) (s : Sys σ) :
    Except String Unit × Sys σ :=
  let r := runGit env ["rev-parse", "--verify", "origin/" ++ branch] s
  match r.1.err with
  | some _ => (.ok (), r.2)
  | none =>
    match GetCurrentBranch env r.2 with
    | (.error e, s1) => (.error e, s1)
    | (.ok currentBranch, s1) =>
      if currentBranch = branch then
        let p := runGit env ["pull", "--ff-only"] s1
        match p.1.err with
        | some e => (.error ("failed to fast-forward " ++ branch ++ ": " ++ e), p.2)
        | none => (.ok (), p.2)
      else
        let f := runGit env ["fetch", "origin", branch ++ ":" ++ branch] s1
        (.ok (), f.2)

/-- Embeds `BranchExists`. -/
def BranchExists {σ : Type} (env : Env σ) (branch : String) (s : Sys σ) : Bool × Sys σ :=
  let r := runGit env ["rev-parse", "--verify", branch] s
  (r.1.err.isNone, r.2)

/-- Embeds `CreateBranch`. -/
def CreateBranch {σ : Type} (env : Env σ) (name source : String) (s : Sys σ) :
    Except String Unit × Sys σ :=
  let r := runGit env ["branch", name, source] s
  match r.1.err with
  | some _ => (.error ("failed to create branch " ++ name ++ ": " ++ r.1.combined), r.2)
  | none => (.ok (), r.2)

/-- Embeds `DeleteBranch`. -/
def DeleteBranch {σ : Type} (env : Env σ) (branch : String) (s : Sys σ) :
    Except String Unit × Sys σ :=
  let r := runGit env ["branch", "-D", branch] s
  match r.1.err with
  | some _ => (.error ("failed to delete branch " ++ branch ++ ": " ++ r.1.combined), r.2)
  | none => (.ok (), r.2)

/-- Embeds `HasCommits`. -/
def HasCommits {σ : Type} (env : Env σ) (branch : String) (s : Sys σ) : Bool × Sys σ :=
  let r := runGit env ["rev-parse", branch] s
  (r.1.err.isNone, r.2)

/-- Embeds `AddWorktree`. -/
def AddWorktree {σ : Type} (env : Env σ) (path branch : String) (s : Sys σ) :
    Except String Unit × Sys σ :=
  let r := runGit env ["worktree", "add", path, branch] s
  match r.1.err with
  | some e => (.error ("failed to create worktree: " ++ e), r.2)
  | none => (.ok (), r.2)

/-- Embeds `RemoveWorktree`. -/
def RemoveWorktree {σ : Type} (env : Env σ) (path : String) (s : Sys σ) :
    Except String Unit × Sys σ :=
  let r := runGit env ["worktree", "remove", "--force", path] s
  match r.1.err with
  | some _ => (.error ("failed to remove worktree: " ++ r.1.combined), r.2)
  | none => (.ok (), r.2)

/-- State of the parsing loop of `ListWorktrees`. -/
structure ParseState where
  worktrees : List Worktree
  current : Worktree
deriving DecidableEq, Repr

/-- One iteration of the parsing loop of `ListWorktrees`, on the line `line`. -/
def parseLine (st : ParseState) (line : String) : ParseState :=
  if line = "" then
    { worktrees := if st.current.Path ≠ "" then st.worktrees ++ [st.current] else st.worktrees,
      current := ⟨"", "", ""⟩ }
  else if strings.HasPrefix line "worktree " then
    { st with current := { st.current with Path := strings.TrimPrefix line "worktree " } }
  else if strings.HasPrefix line "HEAD " then
    { st with current := { st.current with Head := strings.TrimPrefix line "HEAD " } }
  else if strings.HasPrefix line "branch " then
    { st with current :=
        { st.current with Branch := strings.TrimPrefix line "branch refs/heads/" } }
  else st

/-- The parsing loop of `ListWorktrees` on the command output, followed by the
final append of a pending record. -/
def parseWorktrees (output : String) : List Worktree :=
  let st := (bufio.scanLines output).foldl parseLine ⟨[], ⟨"", "", ""⟩⟩
  if st.current.Path ≠ "" then st.worktrees ++ [st.current] else st.worktrees

/-- Embeds `ListWorktrees`. -/
def ListWorktrees {σ : Type} (env : Env σ) (s : Sys σ) :
    Except String (List Worktree) × Sys σ :=
  let r := runGit env ["worktree", "list", "--porcelain"] s
  match r.1.err with
  | some e => (.error ("failed to list worktrees: " ++ e), r.2)
  | none => (.ok (parseWorktrees r.1.stdout), r.2)

end git

/-! ## Package `session` -/

namespace session

/-- Embeds the constant `WorktreeBaseDir`. -/
def WorktreeBaseDir : String := ".wt"

/-- Embeds the constant `BranchPrefix`. -/
def BranchPrefix : String := "wt-"

/-- Embeds `session.Session`. -/
structure Session where
  Name : String
  Branch : String
  Path : String
deriving DecidableEq, Repr

/-- Embeds `GetWorktreeBaseDir`. -/
def GetWorktreeBaseDir {σ : Type} (env : Env σ) : Except String String :=
  match env.UserHomeDir with
  | .error e => .error ("failed to get home directory: " ++ e)
  | .ok home => .ok (filepath.Join home WorktreeBaseDir)

/-- Embeds `GetBranchName`. -/
def GetBranchName (sessionName : String) : String :=
  BranchPrefix ++ sessionName

/-- Embeds `GetSessionFromBranch`. -/
def GetSessionFromBranch (branch : String) : String :=
  strings.TrimPrefix branch BranchPrefix

/-- Embeds `GetWorktreePath`. -/
def GetWorktreePath {σ : Type} (env : Env σ) (repoName sessionName : String) :
    Except String String :=
  match GetWorktreeBaseDir env with
  | .error e => .error e
  | .ok baseDir => .ok (filepath.Join baseDir (repoName ++ "-" ++ sessionName))

/-- The body of the loop of `List` for one worktree: `sessions` is the slice built
so far. -/
def listStep (baseDir pre : String) (sessions : List Session) (wt : git.Worktree) :
    List Session :=
  if !strings.HasPrefix wt.Path baseDir then sessions
  else
    let dirName := filepath.Base wt.Path
    if !strings.HasPrefix dirName pre then sessions
    else
      let sessionName := strings.TrimPrefix dirName pre
      sessions ++ [{ Name := sessionName, Branch := wt.Branch, Path := wt.Path }]

/-- The loop of `List` over the worktrees, for a repository name and base directory. -/
def listSessions (repoName baseDir : String) (worktrees : List git.Worktree) : List Session :=
  worktrees.foldl (listStep baseDir (repoName ++ "-")) []

/-- Embeds `List`. -/
def ListSessions {σ : Type} (env : Env σ) (s : Sys σ) : Except String (List Session) × Sys σ :=
  match git.GetRepoName env s with
  | (.error e, s1) => (.error e, s1)
  | (.ok repoName, s1) =>
    match git.ListWorktrees env s1 with
    | (.error e, s2) => (.error e, s2)
    | (.ok worktrees, s2) =>
      match GetWorktreeBaseDir env with
      | .error e => (.error e, s2)
      | .ok baseDir => (.ok (listSessions repoName baseDir worktrees), s2)

/-- The first loop of `Find`: the first session whose name is `name`. -/
def findExact (name : String) : List Session → Option Session
  | [] => none
  | s :: rest => if s.Name = name then some s else findExact name rest

/-- The second loop of `Find`: the sessions whose name starts with `name`. -/
def prefixMatches (name : String) (sessions : List Session) : List Session :=
  sessions.foldl (fun acc s => if strings.HasPrefix s.Name name then acc ++ [s] else acc) []

/-- The part of `Find` after the listing succeeded. -/
def findIn (sessions : List Session) (name : String) : Except String Session :=
  match findExact name sessions with
  | some s => .ok s
  | none =>
    match prefixMatches name sessions with
    | [] => .error ("session '" ++ name ++ "' not found")
    | [m] => .ok m
    | ms =>
      let names := ms.foldl (fun acc m => acc ++ [m.Name]) []
      .error ("'" ++ name ++ "' matches multiple sessions: " ++ strings.Join names ", ")

/-- Embeds `Find`. -/
def Find {σ : Type} (env : Env σ) (name : String) (s : Sys σ) : Except String Session × Sys σ :=
  match ListSessions env s with
  | (.error e, s1) => (.error e, s1)
  | (.ok sessions, s1) => (findIn sessions name, s1)

/-- Embeds `Create`. -/
def Create {σ : Type} (env : Env σ) (name sourceBranch : String) (s : Sys σ) :
    Except String Session × Sys σ :=
  match git.GetRepoName env s with
  | (.error e, s1) => (.error e, s1)
  | (.ok repoName, s1) =>
    match GetWorktreeBaseDir env with
    | .error e => (.error e, s1)
    | .ok baseDir =>
      let m := env.MkdirAll baseDir s1.world
      let s2 : Sys σ := { world := m.2, log := s1.log }
      match m.1 with
      | some e => (.error ("failed to create worktree base directory: " ++ e), s2)
      | none =>
        let branchName := GetBranchName name
        match GetWorktreePath env repoName name with
        | .error e => (.error e, s2)
        | .ok worktreePath =>
          if env.Stat worktreePath s2.world then
            (.error ("session '" ++ name ++ "' already exists at " ++ worktreePath), s2)
          else
            let s3 := (git.FetchOrigin env s2).2
            let s4 := (git.FastForwardBranch env sourceBranch s3).2
            let h := git.HasCommits env sourceBranch s4
            if !h.1 then
              (.error ("source branch '" ++ sourceBranch ++ "' has no commits"), h.2)
            else
              let b := git.BranchExists env branchName h.2
              let c := if !b.1 then git.CreateBranch env branchName sourceBranch b.2
                       else (.ok (), b.2)
              match c with
              | (.error e, s6) => (.error e, s6)
              | (.ok _, s6) =>
                match git.AddWorktree env worktreePath branchName s6 with
                | (.error e, s7) => (.error e, (git.DeleteBranch env branchName s7).2)
                | (.ok _, s7) =>
                  (.ok { Name := name, Branch := branchName, Path := worktreePath }, s7)

/-- Embeds `Remove`. -/
def Remove {σ : Type} (env : Env σ) (name : String) (s : Sys σ) : Except String Unit × Sys σ :=
  match Find env name s with
  | (.error e, s1) => (.error e, s1)
  | (.ok session, s1) =>
    match git.RemoveWorktree env session.Path s1 with
    | (.error e, s2) => (.error e, s2)
    | (.ok _, s2) => (.ok (), (git.DeleteBranch env session.Branch s2).2)

/-- The loop of `RemoveAll`: each session is removed by name; a failure is
reported on the console and the loop goes on. -/
def removeEach {σ : Type} (env : Env σ) : List Session → Sys σ → Sys σ
  | [], s => s
  | x :: rest, s =>
    match Remove env x.Name s with
    | (.error _, s1) => removeEach env rest s1
    | (.ok _, s1) => removeEach env rest s1

/-- Embeds `RemoveAll`. -/
def RemoveAll {σ : Type} (env : Env σ) (s : Sys σ) : Except String Unit × Sys σ :=
  match ListSessions env s with
  | (.error e, s1) => (.error e, s1)
  | (.ok sessions, s1) =>
    if sessions.length = 0 then (.ok (), s1)
    else (.ok (), removeEach env sessions s1)

/-- The paths of the worktrees whose removal a log of git commands asks for, oldest
first. -/
def attempted (log : List (List String)) : List String :=
  log.filterMap fun args =>
    match args with
    | ["worktree", "remove", "--force", p] => some p
    | _ => none

/-- Tells whether each session of the list, when its turn comes in the loop of
`RemoveAll` started in state `s`, is the session `Find` returns for its name. -/
def resolvesInTurn {σ : Type} (env : Env σ) : List Session → Sys σ → Bool
  | [], _ => true
  | x :: rest, s =>
    (match (Find env x.Name s).1 with
     | .ok y => decide (y.Path = x.Path)
     | .error _ => false) &&
    resolvesInTurn env rest (Remove env x.Name s).2

end session

/-! ## A reference world, used to run the program on concrete inputs -/

namespace sim

/-- A small world: one repository without a remote, and the filesystem entries of
interest. -/
structure World where
  /-- Top-level directory of the repository the process runs in, if any. -/
  root : Option String
  /-- Branch checked out in the current directory. -/
  head : String
  /-- Paths at which a filesystem entry exists. -/
  entries : List String
  /-- Whether new filesystem entries can be created. -/
  writable : Bool
  /-- Local branches; each points at a commit. -/
  branches : List String
  /-- Worktrees of the repository, in listing order. -/
  worktrees : List git.Worktree
  /-- Worktree paths whose removal fails. -/
  stuck : List String
deriving DecidableEq, Repr

/-- The text `git worktree list --porcelain` prints for the given worktrees. -/
def porcelain (wts : List git.Worktree) : String :=
  String.join (wts.map fun w =>
    "worktree " ++ w.Path ++ "\nHEAD " ++ w.Head ++ "\n" ++
    (if w.Branch = "" then "detached\n" else "branch refs/heads/" ++ w.Branch ++ "\n") ++ "\n")

/-- A command that fails and changes nothing. -/
def failed (w : World) : CmdResult × World :=
  (⟨some "exit status 128", "", "fatal"⟩, w)

/-- A command that succeeds, printing `out`, and leaves the world `w`. -/
def done (out : String) (w : World) : CmdResult × World :=
  (⟨none, out, out⟩, w)

/-- The git commands the program runs, on the small world. -/
def gitCommand : List String → World → CmdResult × World
  | ["rev-parse", "--show-toplevel"], w =>
    match w.root with
    | some r => done (r ++ "\n") w
    | none => failed w
  | ["rev-parse", "--abbrev-ref", "HEAD"], w => done (w.head ++ "\n") w
  | ["rev-parse", "--verify", b], w => if b ∈ w.branches then done "" w else failed w
  | ["rev-parse", b], w => if b ∈ w.branches then done "" w else failed w
  | ["branch", "-D", b], w =>
    if b ∈ w.branches ∧ ∀ t ∈ w.worktrees, t.Branch ≠ b then
      done "" { w with branches := w.branches.filter (fun x => x ≠ b) }
    else failed w
  | ["branch", n, src], w =>
    if src ∈ w.branches ∧ n ∉ w.branches then
      done "" { w with branches := w.branches ++ [n] }
    else failed w
  | ["worktree", "add", p, b], w =>
    if w.writable = true ∧ p ∉ w.entries ∧ b ∈ w.branches ∧ ∀ t ∈ w.worktrees, t.Branch ≠ b then
      done "" { w with entries := w.entries ++ [p], worktrees := w.worktrees ++ [⟨p, "c0ffee", b⟩] }
    else failed w
  | ["worktree", "remove", "--force", p], w =>
    if (∃ t ∈ w.worktrees, t.Path = p) ∧ p ∉ w.stuck then
      done "" { w with entries := w.entries.filter (fun x => x ≠ p),
                       worktrees := w.worktrees.filter (fun t => t.Path ≠ p) }
    else failed w
  | ["worktree", "list", "--porcelain"], w => done (porcelain w.worktrees) w
  | _, w => failed w

/-- The small world as an environment, for a process whose `HOME` is `home`. -/
def env (home : String) : Env World where
  git := gitCommand
  UserHomeDir := if home = "" then .error "$HOME is not defined" else .ok home
  MkdirAll := fun p w =>
    if p ∈ w.entries then (none, w)
    else if w.writable = true then (none, { w with entries := w.entries ++ [p] })
    else (some ("mkdir " ++ p ++ ": permission denied"), w)
  Stat := fun p w => decide (p ∈ w.entries)

/-- Repository `app` with three sessions `a`, `b`, `c`; the worktree of `b` cannot be
removed. -/
def threeSessions : World :=
  { root := some "/src/app", head := "main",
    entries := ["/home/u/.wt", "/home/u/.wt/app-a", "/home/u/.wt/app-b", "/home/u/.wt/app-c"],
    writable := true,
    branches := ["main", "wt-a", "wt-b", "wt-c"],
    worktrees := [⟨"/src/app", "c0ffee", "main"⟩, ⟨"/home/u/.wt/app-a", "c0ffee", "wt-a"⟩,
      ⟨"/home/u/.wt/app-b", "c0ffee", "wt-b"⟩, ⟨"/home/u/.wt/app-c", "c0ffee", "wt-c"⟩],
    stuck := ["/home/u/.wt/app-b"] }

/-- Repository `app` where the branch `wt-x` exists, is checked out nowhere, and no
new filesystem entry can be created (the base directory exists but is read-only). -/
def reusedBranch : World :=
  { root := some "/src/app", head := "main", entries := ["/home/u/.wt"], writable := false,
    branches := ["main", "wt-x"], worktrees := [⟨"/src/app", "c0ffee", "main"⟩], stuck := [] }

/-- Repository `app` for a user who has an entry `/home/u/x` and no base directory
yet. -/
def noBaseDir : World :=
  { root := some "/src/app", head := "main", entries := ["/home/u", "/home/u/x"],
    writable := true, branches := ["main"], worktrees := [⟨"/src/app", "c0ffee", "main"⟩],
    stuck := [] }

/-- Repository `app` with the worktrees made by `Create` for the names `x` and
`y/app-x`; the first cannot be removed. -/
def twinNames : World :=
  { root := some "/src/app", head := "main",
    entries := ["/home/u/.wt", "/home/u/.wt/app-x", "/home/u/.wt/app-y",
      "/home/u/.wt/app-y/app-x"],
    writable := true,
    branches := ["main", "wt-x", "wt-y/app-x"],
    worktrees := [⟨"/src/app", "c0ffee", "main"⟩, ⟨"/home/u/.wt/app-x", "c0ffee", "wt-x"⟩,
      ⟨"/home/u/.wt/app-y/app-x", "c0ffee", "wt-y/app-x"⟩],
    stuck := ["/home/u/.wt/app-x"] }

end sim

/-! ## Porcelain listings, as text -/

namespace porcelain

/-- One working-copy record of a porcelain listing: the path, the commit, the branch
(absent for a detached head) and the further lines of the record. -/
structure Record where
  path : String
  head : String
  branch : Option String
  extra : List String
deriving DecidableEq, Repr

/-- The lines of a record: `worktree <path>`, `HEAD <commit>`, `branch
refs/heads/<name>` when there is a branch, then the further lines. -/
def Record.lines (r : Record) : List String :=
  ["worktree " ++ r.path, "HEAD " ++ r.head] ++
    (match r.branch with
     | some b => ["branch refs/heads/" ++ b]
     | none => []) ++
    r.extra

/-- The worktree a record stands for. -/
def Record.toWorktree (r : Record) : git.Worktree :=
  { Path := r.path, Head := r.head, Branch := r.branch.getD "" }

/-- How the text ends after the last line of the last record. -/
inductive Ending where
  /-- No end-of-line marker at all. -/
  | bare
  /-- A line feed. -/
  | newline
  /-- A line feed and a blank line. -/
  | blank
deriving DecidableEq, Repr

/-- The characters that follow the last line. -/
def Ending.text : Ending → String
  | .bare => ""
  | .newline => "\n"
  | .blank => "\n\n"

/-- The lines of a listing: the lines of each record, a blank line between records. -/
def allLines : List Record → List String
  | [] => []
  | [r] => r.lines
  | r :: r2 :: rest => r.lines ++ [""] ++ allLines (r2 :: rest)

/-- The listing as text: lines separated by line feeds, then the ending. -/
def render (recs : List Record) (e : Ending) : String :=
  strings.Join (allLines recs) "\n" ++ e.text

/-- A field value or line that survives line scanning unchanged: no line feed
inside, no carriage return at the end. -/
def valueOk (v : String) : Prop :=
  '\n' ∉ v.data ∧ v.data.getLast? ≠ some '\r'

/-- A line that the parsing loop does not recognise and that is not blank. -/
def unrecognized (x : String) : Prop :=
  x ≠ "" ∧ strings.HasPrefix x "worktree " = false ∧ strings.HasPrefix x "HEAD " = false ∧
    strings.HasPrefix x "branch " = false

/-- The branch name of a record, when there is one, survives line scanning. -/
def branchOk : Option String → Prop
  | some b => valueOk b
  | none => True

/-- A record whose rendering can be read back: a non-empty path, values and further
lines that survive line scanning, further lines that are unrecognised, and every
line shorter than the scanner's token limit. -/
def Record.WellFormed (r : Record) : Prop :=
  r.path ≠ "" ∧ valueOk r.path ∧ valueOk r.head ∧ branchOk r.branch ∧
    (∀ x ∈ r.extra, valueOk x ∧ unrecognized x) ∧
    (∀ l ∈ r.lines, l.utf8ByteSize < bufio.MaxScanTokenSize)

instance (v : String) : Decidable (valueOk v) := by
  unfold valueOk; infer_instance

instance (x : String) : Decidable (unrecognized x) := by
  unfold unrecognized; infer_instance

instance (o : Option String) : Decidable (branchOk o) := by
  cases o <;> unfold branchOk <;> infer_instance

instance (r : Record) : Decidable r.WellFormed := by
  unfold Record.WellFormed; infer_instance

end porcelain

/-! ## Properties of the string helpers -/

theorem strings.hasPrefix_iff (s pre : String) :
    strings.HasPrefix s pre = true ↔ pre.data <+: s.data := by
  unfold strings.HasPrefix
  exact List.isPrefixOf_iff_prefix

theorem strings.hasPrefix_append (pre s : String) : strings.HasPrefix (pre ++ s) pre = true := by
  rw [strings.hasPrefix_iff, String.data_append]
  exact List.prefix_append _ _

theorem strings.trimPrefix_append (pre s : String) : strings.TrimPrefix (pre ++ s) pre = s := by
  unfold strings.TrimPrefix
  rw [if_pos (strings.hasPrefix_append pre s)]
  apply String.ext
  simp [String.data_append]

theorem strings.trimPrefix_of_not (s pre : String) (h : strings.HasPrefix s pre = false) :
    strings.TrimPrefix s pre = s := by
  unfold strings.TrimPrefix
  simp [h]

/-! ## Naming convention -/

/-- C1: the branch of a session name `S` is `"wt-"` followed by `S`, and the session
of that branch is `S` again, whatever `S` starts with. -/
theorem session.branch_name_roundtrip (S : String) :
    session.GetBranchName S = "wt-" ++ S ∧
      session.GetSessionFromBranch (session.GetBranchName S) = S := by
  refine ⟨rfl, ?_⟩
  unfold session.GetSessionFromBranch session.GetBranchName
  exact strings.trimPrefix_append _ _

/-- C10: on a string that does not start with `"wt-"`, `GetSessionFromBranch` is the
identity. -/
theorem session.session_from_foreign_branch (b : String)
    (h : strings.HasPrefix b "wt-" = false) : session.GetSessionFromBranch b = b := by
  unfold session.GetSessionFromBranch session.BranchPrefix
  exact strings.trimPrefix_of_not b "wt-" h

theorem session.session_from_foreign_branch_witness :
    strings.HasPrefix "other-branch" "wt-" = false ∧
      session.GetSessionFromBranch "other-branch" = "other-branch" :=
  ⟨by decide, session.session_from_foreign_branch "other-branch" (by decide)⟩

/-! ## Lookup by name -/

theorem session.findExact_some (q : String) (sessions : List session.Session)
    (h : ∃ s ∈ sessions, s.Name = q) :
    ∃ s pre post, session.findExact q sessions = some s ∧ s.Name = q ∧
      sessions = pre ++ s :: post ∧ ∀ x ∈ pre, x.Name ≠ q := by
  induction sessions with
  | nil => simp at h
  | cons a rest ih =>
    by_cases ha : a.Name = q
    · exact ⟨a, [], rest, by simp [session.findExact, ha], ha, rfl, by simp⟩
    · have h2 : ∃ s ∈ rest, s.Name = q := by
        obtain ⟨s, hs, hq⟩ := h
        rcases List.mem_cons.mp hs with rfl | hs
        · exact absurd hq ha
        · exact ⟨s, hs, hq⟩
      obtain ⟨s, pre, post, hf, hq, hsplit, hpre⟩ := ih h2
      refine ⟨s, a :: pre, post, by simp [session.findExact, ha, hf], hq, by simp [hsplit], ?_⟩
      intro x hx
      rcases List.mem_cons.mp hx with rfl | hx
      · exact ha
      · exact hpre x hx

theorem session.findExact_none (q : String) (sessions : List session.Session)
    (h : ∀ s ∈ sessions, s.Name ≠ q) : session.findExact q sessions = none := by
  induction sessions with
  | nil => rfl
  | cons a rest ih =>
    have ha : a.Name ≠ q := h a (List.mem_cons_self _ _)
    simp only [session.findExact, if_neg ha]
    exact ih (fun s hs => h s (List.mem_cons_of_mem _ hs))

theorem session.foldl_append_if {α β : Type} (p : α → Bool) (f : α → β) (l : List α)
    (acc : List β) :
    l.foldl (fun acc x => if p x then acc ++ [f x] else acc) acc =
      acc ++ (l.filter p).map f := by
  induction l generalizing acc with
  | nil => simp
  | cons a rest ih =>
    by_cases h : p a = true
    · simp [List.foldl_cons, h, ih, List.filter_cons]
    · simp [List.foldl_cons, h, ih, List.filter_cons]

theorem session.prefixMatches_eq_filter (q : String) (sessions : List session.Session) :
    session.prefixMatches q sessions =
      sessions.filter (fun s => strings.HasPrefix s.Name q) := by
  unfold session.prefixMatches
  have := session.foldl_append_if (fun s : session.Session => strings.HasPrefix s.Name q)
    (fun s => s) sessions []
  simpa using this

theorem session.names_eq_map (ms : List session.Session) :
    ms.foldl (fun acc (m : session.Session) => acc ++ [m.Name]) [] = ms.map (fun m => m.Name) := by
  have := session.foldl_append_if (fun _ : session.Session => true) (fun m => m.Name) ms []
  simpa using this

/-- C3: when some session is named exactly as the query, the lookup succeeds with
the first such session in listing order, whatever other names start with the query. -/
theorem session.find_exact_match (sessions : List session.Session) (q : String)
    (h : ∃ s ∈ sessions, s.Name = q) :
    ∃ s pre post, session.findIn sessions q = .ok s ∧ s.Name = q ∧
      sessions = pre ++ s :: post ∧ ∀ x ∈ pre, x.Name ≠ q := by
  obtain ⟨s, pre, post, hf, hq, hsplit, hpre⟩ := session.findExact_some q sessions h
  exact ⟨s, pre, post, by simp [session.findIn, hf], hq, hsplit, hpre⟩

theorem session.find_exact_match_witness :
    session.findIn [⟨"auth-feature", "wt-auth-feature", "/home/u/.wt/app-auth-feature"⟩,
        ⟨"auth-login", "wt-auth-login", "/home/u/.wt/app-auth-login"⟩] "auth-feature" =
      .ok ⟨"auth-feature", "wt-auth-feature", "/home/u/.wt/app-auth-feature"⟩ ∧
    ∃ s pre post,
      session.findIn [⟨"auth-feature", "wt-auth-feature", "/home/u/.wt/app-auth-feature"⟩,
        ⟨"auth-login", "wt-auth-login", "/home/u/.wt/app-auth-login"⟩] "auth-feature" = .ok s ∧
      s.Name = "auth-feature" ∧
      [(⟨"auth-feature", "wt-auth-feature", "/home/u/.wt/app-auth-feature"⟩ : session.Session),
        ⟨"auth-login", "wt-auth-login", "/home/u/.wt/app-auth-login"⟩] = pre ++ s :: post ∧
      ∀ x ∈ pre, x.Name ≠ "auth-feature" :=
  ⟨by decide,
   session.find_exact_match _ "auth-feature"
    ⟨⟨"auth-feature", "wt-auth-feature", "/home/u/.wt/app-auth-feature"⟩, by decide, rfl⟩⟩

/-- C4: when no session is named exactly as the query, the outcome follows the
sessions whose name starts with the query, taken in listing order: none gives the
not-found error, exactly one is returned, two or more give the ambiguity error whose
message lists the names of exactly those sessions, one entry each, in that order. -/
theorem session.find_prefix_outcome (sessions : List session.Session) (q : String)
    (h : ∀ s ∈ sessions, s.Name ≠ q) :
    ((sessions.filter (fun s => strings.HasPrefix s.Name q)).length = 0 →
        session.findIn sessions q = .error ("session '" ++ q ++ "' not found")) ∧
    (∀ m, sessions.filter (fun s => strings.HasPrefix s.Name q) = [m] →
        session.findIn sessions q = .ok m) ∧
    (2 ≤ (sessions.filter (fun s => strings.HasPrefix s.Name q)).length →
        session.findIn sessions q =
          .error ("'" ++ q ++ "' matches multiple sessions: " ++
            strings.Join ((sessions.filter (fun s => strings.HasPrefix s.Name q)).map
              (fun m => m.Name)) ", ")) := by
  have hn := session.findExact_none q sessions h
  have hp := session.prefixMatches_eq_filter q sessions
  refine ⟨?_, ?_, ?_⟩
  · intro h0
    have h0' : sessions.filter (fun s => strings.HasPrefix s.Name q) = [] :=
      List.length_eq_zero.mp h0
    simp [session.findIn, hn, hp, h0']
  · intro m hm
    simp [session.findIn, hn, hp, hm]
  · intro h2
    generalize hms : sessions.filter (fun s => strings.HasPrefix s.Name q) = ms at h2 hp
    match ms, h2 with
    | a :: b :: rest, _ =>
      simp only [session.findIn, hn, hp]
      rw [session.names_eq_map]

theorem session.find_prefix_outcome_witness :
    (∀ s ∈ [(⟨"auth-feature", "wt-auth-feature", "/home/u/.wt/app-auth-feature"⟩ : session.Session),
        ⟨"auth-login", "wt-auth-login", "/home/u/.wt/app-auth-login"⟩], s.Name ≠ "auth") ∧
    session.findIn [⟨"auth-feature", "wt-auth-feature", "/home/u/.wt/app-auth-feature"⟩,
        ⟨"auth-login", "wt-auth-login", "/home/u/.wt/app-auth-login"⟩] "auth" =
      .error "'auth' matches multiple sessions: auth-feature, auth-login" ∧
    session.findIn [⟨"auth-feature", "wt-auth-feature", "/home/u/.wt/app-auth-feature"⟩,
        ⟨"auth-login", "wt-auth-login", "/home/u/.wt/app-auth-login"⟩] "xyz" =
      .error "session 'xyz' not found" ∧
    session.findIn [⟨"auth-feature", "wt-auth-feature", "/home/u/.wt/app-auth-feature"⟩,
        ⟨"auth-login", "wt-auth-login", "/home/u/.wt/app-auth-login"⟩] "auth-l" =
      .ok ⟨"auth-login", "wt-auth-login", "/home/u/.wt/app-auth-login"⟩ :=
  ⟨by decide,
   ((session.find_prefix_outcome
      [⟨"auth-feature", "wt-auth-feature", "/home/u/.wt/app-auth-feature"⟩,
        ⟨"auth-login", "wt-auth-login", "/home/u/.wt/app-auth-login"⟩] "auth"
      (by decide)).2.2 (by decide)).trans (by decide),
   (session.find_prefix_outcome
      [⟨"auth-feature", "wt-auth-feature", "/home/u/.wt/app-auth-feature"⟩,
        ⟨"auth-login", "wt-auth-login", "/home/u/.wt/app-auth-login"⟩] "xyz"
      (by decide)).1 (by decide),
   (session.find_prefix_outcome
      [⟨"auth-feature", "wt-auth-feature", "/home/u/.wt/app-auth-feature"⟩,
        ⟨"auth-login", "wt-auth-login", "/home/u/.wt/app-auth-login"⟩] "auth-l"
      (by decide)).2.1 _ (by decide)⟩

/-! ## Listing -/

theorem session.listSessions_eq (R B : String) (W : List git.Worktree) :
    session.listSessions R B W =
      (W.filter (fun w => strings.HasPrefix w.Path B &&
          strings.HasPrefix (filepath.Base w.Path) (R ++ "-"))).map
        (fun w => { Name := strings.TrimPrefix (filepath.Base w.Path) (R ++ "-"),
                    Branch := w.Branch, Path := w.Path }) := by
  unfold session.listSessions
  have key : ∀ (acc : List session.Session),
      W.foldl (session.listStep B (R ++ "-")) acc =
        acc ++ (W.filter (fun w => strings.HasPrefix w.Path B &&
          strings.HasPrefix (filepath.Base w.Path) (R ++ "-"))).map
        (fun w => { Name := strings.TrimPrefix (filepath.Base w.Path) (R ++ "-"),
                    Branch := w.Branch, Path := w.Path }) := by
    induction W with
    | nil => intro acc; simp
    | cons a rest ih =>
      intro acc
      rw [List.foldl_cons, ih]
      by_cases h1 : strings.HasPrefix a.Path B = true
      · by_cases h2 : strings.HasPrefix (filepath.Base a.Path) (R ++ "-") = true
        · simp [session.listStep, h1, h2, List.filter_cons]
        · simp [session.listStep, h1, h2, List.filter_cons]
      · simp [session.listStep, h1, List.filter_cons]
  simpa using key []

/-- The base-directory test of `List` compares text: a worktree in a sibling
directory whose name continues that of the base directory passes it. -/
theorem session.list_sibling_directory :
    session.listSessions "app" "/home/u/.wt" [⟨"/home/u/.wt2/app-s1", "c0ffee", "wt-s1"⟩] =
      [⟨"s1", "wt-s1", "/home/u/.wt2/app-s1"⟩] := by
  decide

/-- The listed worktree of `session.list_sibling_directory` starts with the text of
the base directory and does not lie under it. -/
theorem session.sibling_not_under :
    strings.HasPrefix "/home/u/.wt2/app-s1" "/home/u/.wt" = true ∧
      filepath.liesUnder "/home/u/.wt" "/home/u/.wt2/app-s1" = false := by
  decide

/-! ## Line scanning -/

theorem bufio.rawLines_append_lf (l rest : List Char) (h : '\n' ∉ l) :
    bufio.rawLines (l ++ '\n' :: rest) = l :: bufio.rawLines rest := by
  induction l with
  | nil => simp [bufio.rawLines]
  | cons c cs ih =>
    have hc : c ≠ '\n' := fun e => h (by simp [e])
    have hcs : '\n' ∉ cs := fun e => h (by simp [e])
    simp [bufio.rawLines, hc, ih hcs]

theorem bufio.rawLines_single (l : List Char) (h : '\n' ∉ l) (hne : l ≠ []) :
    bufio.rawLines l = [l] := by
  induction l with
  | nil => exact absurd rfl hne
  | cons c cs ih =>
    have hc : c ≠ '\n' := fun e => h (by simp [e])
    have hcs : '\n' ∉ cs := fun e => h (by simp [e])
    by_cases hcs0 : cs = []
    · subst hcs0; simp [bufio.rawLines, hc]
    · simp [bufio.rawLines, hc, ih hcs hcs0]

theorem strings.join_cons_cons (a b : String) (rest : List String) (sep : String) :
    strings.Join (a :: b :: rest) sep = a ++ sep ++ strings.Join (b :: rest) sep := rfl

/-- Lines joined by line feeds and followed by a line feed scan back to the lines. -/
theorem bufio.rawLines_join_lf (ls : List String) (t : List Char) (hne : ls ≠ [])
    (h : ∀ l ∈ ls, '\n' ∉ l.data) :
    bufio.rawLines ((strings.Join ls "\n").data ++ '\n' :: t) =
      ls.map (fun l => l.data) ++ bufio.rawLines t := by
  induction ls with
  | nil => exact absurd rfl hne
  | cons a rest ih =>
    cases rest with
    | nil =>
      simp only [strings.Join, List.map_cons, List.map_nil]
      rw [bufio.rawLines_append_lf _ _ (h a (List.mem_cons_self _ _))]
      rfl
    | cons b rest2 =>
      rw [strings.join_cons_cons]
      have e : (a ++ "\n" ++ strings.Join (b :: rest2) "\n").data ++ '\n' :: t =
          a.data ++ '\n' :: ((strings.Join (b :: rest2) "\n").data ++ '\n' :: t) := by
        simp [String.data_append]
      rw [e, bufio.rawLines_append_lf _ _ (h a (List.mem_cons_self _ _)),
        ih (by simp) (fun l hl => h l (List.mem_cons_of_mem _ hl))]
      simp

/-- Lines joined by line feeds, the last one not blank, scan back to the lines. -/
theorem bufio.rawLines_join (ls : List String) (hlast : ∃ l, ls.getLast? = some l ∧ l ≠ "")
    (h : ∀ l ∈ ls, '\n' ∉ l.data) :
    bufio.rawLines (strings.Join ls "\n").data = ls.map (fun l => l.data) := by
  induction ls with
  | nil => simp at hlast
  | cons a rest ih =>
    cases rest with
    | nil =>
      obtain ⟨l, hl, hne⟩ := hlast
      simp at hl
      subst hl
      have hd : a.data ≠ [] := fun e => hne (String.ext (by simpa using e))
      simp only [strings.Join, List.map_cons, List.map_nil]
      exact bufio.rawLines_single _ (h a (List.mem_cons_self _ _)) hd
    | cons b rest2 =>
      rw [strings.join_cons_cons]
      have e : (a ++ "\n" ++ strings.Join (b :: rest2) "\n").data =
          a.data ++ '\n' :: (strings.Join (b :: rest2) "\n").data := by
        simp [String.data_append]
      have hlast2 : ∃ l, (b :: rest2).getLast? = some l ∧ l ≠ "" := by
        obtain ⟨l, hl, hne⟩ := hlast
        exact ⟨l, by simpa [List.getLast?_cons_cons] using hl, hne⟩
      rw [e, bufio.rawLines_append_lf _ _ (h a (List.mem_cons_self _ _)),
        ih hlast2 (fun l hl => h l (List.mem_cons_of_mem _ hl))]
      simp

theorem bufio.dropCR_of_ok (l : List Char) (h : l.getLast? ≠ some '\r') : bufio.dropCR l = l := by
  simp [bufio.dropCR, h]

theorem bufio.scan_of_rawLines (input : String) (ls : List String)
    (hraw : bufio.rawLines input.data = ls.map (fun l => l.data))
    (hok : ∀ l ∈ ls, bufio.lineOk l) : bufio.scanLines input = ls := by
  unfold bufio.scanLines
  rw [hraw]
  have h1 : (ls.map (fun l => l.data)).takeWhile
      (fun l => decide ((String.mk l).utf8ByteSize < bufio.MaxScanTokenSize)) =
      ls.map (fun l => l.data) := by
    rw [List.takeWhile_eq_self_iff]
    intro x hx
    obtain ⟨l, hl, rfl⟩ := List.mem_map.mp hx
    simpa using (hok l hl).2.2
  rw [h1, List.map_map]
  conv_rhs => rw [← List.map_id ls]
  apply List.map_congr_left
  intro l hl
  simp [bufio.dropCR_of_ok _ (hok l hl).2.1]

/-! ## The parsing loop on the lines of a record -/

theorem strings.append_ne_empty (a x : String) (h : a ≠ "") : a ++ x ≠ "" := by
  intro e
  apply h
  have := congrArg String.data e
  rw [String.data_append] at this
  apply String.ext
  exact (List.append_eq_nil.mp this).1

theorem strings.hasPrefix_append_of (a x pre : String) (h : strings.HasPrefix a pre = true) :
    strings.HasPrefix (a ++ x) pre = true := by
  rw [strings.hasPrefix_iff] at h ⊢
  rw [String.data_append]
  exact h.trans (List.prefix_append _ _)

theorem strings.hasPrefix_append_apart (a x pre : String)
    (h1 : strings.HasPrefix a pre = false) (h2 : strings.HasPrefix pre a = false) :
    strings.HasPrefix (a ++ x) pre = false := by
  rw [Bool.eq_false_iff] at h1 h2 ⊢
  intro h
  rw [strings.hasPrefix_iff, String.data_append] at h
  rcases List.prefix_or_prefix_of_prefix h (List.prefix_append a.data x.data) with h3 | h3
  · exact h1 ((strings.hasPrefix_iff _ _).mpr h3)
  · exact h2 ((strings.hasPrefix_iff _ _).mpr h3)

theorem git.parseLine_worktree (st : git.ParseState) (p : String) :
    git.parseLine st ("worktree " ++ p) =
      { st with current := { st.current with Path := p } } := by
  unfold git.parseLine
  rw [if_neg (strings.append_ne_empty _ _ (by decide)),
    if_pos (strings.hasPrefix_append _ _), strings.trimPrefix_append]

theorem git.parseLine_head (st : git.ParseState) (h : String) :
    git.parseLine st ("HEAD " ++ h) =
      { st with current := { st.current with Head := h } } := by
  unfold git.parseLine
  rw [if_neg (strings.append_ne_empty _ _ (by decide)),
    if_neg (by rw [strings.hasPrefix_append_apart _ _ _ (by decide) (by decide)]; simp),
    if_pos (strings.hasPrefix_append _ _), strings.trimPrefix_append]

theorem git.parseLine_branch (st : git.ParseState) (b : String) :
    git.parseLine st ("branch refs/heads/" ++ b) =
      { st with current := { st.current with Branch := b } } := by
  unfold git.parseLine
  rw [if_neg (strings.append_ne_empty _ _ (by decide)),
    if_neg (by rw [strings.hasPrefix_append_apart _ _ _ (by decide) (by decide)]; simp),
    if_neg (by rw [strings.hasPrefix_append_apart _ _ _ (by decide) (by decide)]; simp),
    if_pos (strings.hasPrefix_append_of _ _ _ (by decide)), strings.trimPrefix_append]

theorem git.parseLine_unrecognized (st : git.ParseState) (x : String)
    (h : porcelain.unrecognized x) : git.parseLine st x = st := by
  obtain ⟨h0, h1, h2, h3⟩ := h
  unfold git.parseLine
  simp [h0, h1, h2, h3]

theorem git.parseLine_blank (st : git.ParseState) :
    git.parseLine st "" =
      { worktrees := if st.current.Path ≠ "" then st.worktrees ++ [st.current]
                     else st.worktrees,
        current := ⟨"", "", ""⟩ } := by
  unfold git.parseLine
  simp

theorem git.foldl_unrecognized (st : git.ParseState) (xs : List String)
    (h : ∀ x ∈ xs, porcelain.unrecognized x) : xs.foldl git.parseLine st = st := by
  induction xs generalizing st with
  | nil => rfl
  | cons x rest ih =>
    rw [List.foldl_cons, git.parseLine_unrecognized st x (h x (List.mem_cons_self _ _))]
    exact ih st (fun y hy => h y (List.mem_cons_of_mem _ hy))

/-- The loop, started on an empty current record, reads the lines of a record into
the worktree the record stands for. -/
theorem git.foldl_record (acc : List git.Worktree) (r : porcelain.Record)
    (h : ∀ x ∈ r.extra, porcelain.unrecognized x) :
    r.lines.foldl git.parseLine ⟨acc, ⟨"", "", ""⟩⟩ = ⟨acc, r.toWorktree⟩ := by
  obtain ⟨p, hd, br, ex⟩ := r
  cases br with
  | none =>
    simp only [porcelain.Record.lines, List.foldl_append, List.foldl_cons, List.foldl_nil,
      git.parseLine_worktree, git.parseLine_head]
    rw [git.foldl_unrecognized _ _ h]
    rfl
  | some b =>
    simp only [porcelain.Record.lines, List.foldl_append, List.foldl_cons, List.foldl_nil,
      git.parseLine_worktree, git.parseLine_head, git.parseLine_branch]
    rw [git.foldl_unrecognized _ _ h]
    rfl

/-! ## Rendered listings are read back -/

theorem porcelain.valueOk_append (a v : String) (ha : porcelain.valueOk a)
    (hv : porcelain.valueOk v) : porcelain.valueOk (a ++ v) := by
  unfold porcelain.valueOk at *
  rw [String.data_append]
  refine ⟨?_, ?_⟩
  · intro h
    rcases List.mem_append.mp h with h | h
    · exact ha.1 h
    · exact hv.1 h
  · rw [List.getLast?_append]
    cases hl : v.data.getLast? with
    | none => simpa using ha.2
    | some c =>
      have := hv.2
      rw [hl] at this
      simpa using this

theorem porcelain.valueOk_worktree : porcelain.valueOk "worktree " := by
  unfold porcelain.valueOk; decide

theorem porcelain.valueOk_head : porcelain.valueOk "HEAD " := by
  unfold porcelain.valueOk; decide

theorem porcelain.valueOk_branch : porcelain.valueOk "branch refs/heads/" := by
  unfold porcelain.valueOk; decide

theorem porcelain.lines_ok (r : porcelain.Record) (h : r.WellFormed) :
    ∀ l ∈ r.lines, bufio.lineOk l ∧ l ≠ "" := by
  obtain ⟨_, hp, hh, hb, hx, hsz⟩ := h
  have hval : ∀ l ∈ r.lines, porcelain.valueOk l ∧ l ≠ "" := by
    intro l hl
    unfold porcelain.Record.lines at hl
    simp only [List.mem_append, List.mem_cons, List.mem_singleton, List.not_mem_nil,
      or_false] at hl
    rcases hl with ((rfl | rfl) | hl) | hl
    · exact ⟨porcelain.valueOk_append _ _ porcelain.valueOk_worktree hp,
        strings.append_ne_empty _ _ (by decide)⟩
    · exact ⟨porcelain.valueOk_append _ _ porcelain.valueOk_head hh,
        strings.append_ne_empty _ _ (by decide)⟩
    · cases hbr : r.branch with
      | none => rw [hbr] at hl; simp at hl
      | some b =>
        rw [hbr] at hl
        simp only [List.mem_singleton] at hl
        subst hl
        rw [hbr] at hb
        exact ⟨porcelain.valueOk_append _ _ porcelain.valueOk_branch hb,
          strings.append_ne_empty _ _ (by decide)⟩
    · exact ⟨(hx l hl).1, (hx l hl).2.1⟩
  intro l hl
  exact ⟨⟨(hval l hl).1.1, (hval l hl).1.2, hsz l hl⟩, (hval l hl).2⟩

theorem bufio.lineOk_blank : bufio.lineOk "" := by
  unfold bufio.lineOk; decide

theorem porcelain.allLines_ok (recs : List porcelain.Record) (h : ∀ r ∈ recs, r.WellFormed) :
    ∀ l ∈ porcelain.allLines recs, bufio.lineOk l := by
  induction recs with
  | nil => intro l hl; simp [porcelain.allLines] at hl
  | cons r rest ih =>
    cases rest with
    | nil =>
      intro l hl
      exact (porcelain.lines_ok r (h r (List.mem_cons_self _ _)) l
        (by simpa [porcelain.allLines] using hl)).1
    | cons r2 rest2 =>
      intro l hl
      simp only [porcelain.allLines, List.mem_append, List.mem_singleton] at hl
      rcases hl with (hl | rfl) | hl
      · exact (porcelain.lines_ok r (h r (List.mem_cons_self _ _)) l hl).1
      · exact bufio.lineOk_blank
      · exact ih (fun x hx => h x (List.mem_cons_of_mem _ hx)) l hl

theorem porcelain.lines_last (r : porcelain.Record) (h : r.WellFormed) :
    ∃ l, r.lines.getLast? = some l ∧ l ≠ "" := by
  have hne : r.lines ≠ [] := by simp [porcelain.Record.lines]
  obtain ⟨l, hl⟩ : ∃ l, r.lines.getLast? = some l := by
    cases hg : r.lines.getLast? with
    | none => exact absurd (List.getLast?_eq_none_iff.mp hg) hne
    | some l => exact ⟨l, rfl⟩
  exact ⟨l, hl, (porcelain.lines_ok r h l (List.mem_of_getLast?_eq_some hl)).2⟩

theorem porcelain.allLines_last (r : porcelain.Record) (rest : List porcelain.Record)
    (h : ∀ x ∈ r :: rest, x.WellFormed) :
    ∃ l, (porcelain.allLines (r :: rest)).getLast? = some l ∧ l ≠ "" := by
  induction rest generalizing r with
  | nil => simpa [porcelain.allLines] using porcelain.lines_last r (h r (List.mem_cons_self _ _))
  | cons r2 rest2 ih =>
    obtain ⟨l, hl, hne⟩ := ih r2 (fun x hx => h x (List.mem_cons_of_mem _ hx))
    refine ⟨l, ?_, hne⟩
    simp only [porcelain.allLines]
    rw [List.getLast?_append, hl]
    rfl

theorem porcelain.allLines_ne_nil (r : porcelain.Record) (rest : List porcelain.Record) :
    porcelain.allLines (r :: rest) ≠ [] := by
  cases rest with
  | nil => simp [porcelain.allLines, porcelain.Record.lines]
  | cons r2 rest2 => simp [porcelain.allLines]

/-- The lines the scanner delivers for a rendered listing with at least one record. -/
theorem porcelain.scan_render (r : porcelain.Record) (rest : List porcelain.Record)
    (e : porcelain.Ending) (h : ∀ x ∈ r :: rest, x.WellFormed) :
    bufio.scanLines (porcelain.render (r :: rest) e) =
      porcelain.allLines (r :: rest) ++ (if e = .blank then [""] else []) := by
  have hok := porcelain.allLines_ok (r :: rest) h
  have hlf : ∀ l ∈ porcelain.allLines (r :: rest), '\n' ∉ l.data := fun l hl => (hok l hl).1
  have hne := porcelain.allLines_ne_nil r rest
  cases e with
  | bare =>
    apply bufio.scan_of_rawLines
    · have : (porcelain.render (r :: rest) .bare).data =
          (strings.Join (porcelain.allLines (r :: rest)) "\n").data := by
        simp [porcelain.render, porcelain.Ending.text, String.data_append]
      rw [this, bufio.rawLines_join _ (porcelain.allLines_last r rest h) hlf]
      simp
    · intro l hl
      exact hok l (by simpa using hl)
  | newline =>
    apply bufio.scan_of_rawLines
    · have : (porcelain.render (r :: rest) .newline).data =
          (strings.Join (porcelain.allLines (r :: rest)) "\n").data ++ '\n' :: [] := by
        simp [porcelain.render, porcelain.Ending.text, String.data_append]
      rw [this, bufio.rawLines_join_lf _ _ hne hlf]
      simp [bufio.rawLines]
    · intro l hl
      exact hok l (by simpa using hl)
  | blank =>
    apply bufio.scan_of_rawLines
    · have : (porcelain.render (r :: rest) .blank).data =
          (strings.Join (porcelain.allLines (r :: rest)) "\n").data ++ '\n' :: ['\n'] := by
        simp [porcelain.render, porcelain.Ending.text, String.data_append]
      rw [this, bufio.rawLines_join_lf _ _ hne hlf]
      simp [bufio.rawLines]
    · intro l hl
      simp only [if_true, List.mem_append, List.mem_singleton] at hl
      rcases hl with hl | rfl
      · exact hok l hl
      · exact bufio.lineOk_blank

/-- The end of `ListWorktrees`: a pending record is appended. -/
theorem git.parse_allLines (recs : List porcelain.Record) (h : ∀ x ∈ recs, x.WellFormed)
    (acc : List git.Worktree) (blanks : List String) (hb : blanks = [] ∨ blanks = [""]) :
    (let st := (porcelain.allLines recs ++ blanks).foldl git.parseLine ⟨acc, ⟨"", "", ""⟩⟩
     if st.current.Path ≠ "" then st.worktrees ++ [st.current] else st.worktrees) =
      acc ++ recs.map porcelain.Record.toWorktree := by
  induction recs generalizing acc with
  | nil =>
    rcases hb with rfl | rfl
    · simp [porcelain.allLines]
    · simp [porcelain.allLines, git.parseLine_blank]
  | cons r rest ih =>
    have hr := h r (List.mem_cons_self _ _)
    have hx : ∀ x ∈ r.extra, porcelain.unrecognized x := fun x hx => (hr.2.2.2.2.1 x hx).2
    have hp : r.toWorktree.Path ≠ "" := hr.1
    cases rest with
    | nil =>
      rcases hb with rfl | rfl
      · simp only [porcelain.allLines, List.append_nil, git.foldl_record acc r hx]
        simp [hp]
      · simp only [porcelain.allLines, List.foldl_append, git.foldl_record acc r hx,
          List.foldl_cons, List.foldl_nil, git.parseLine_blank]
        simp [hp]
    | cons r2 rest2 =>
      have := ih (fun x hx => h x (List.mem_cons_of_mem _ hx)) (acc ++ [r.toWorktree])
      simp only [porcelain.allLines, List.foldl_append, git.foldl_record acc r hx,
        List.foldl_cons, List.foldl_nil, git.parseLine_blank, List.append_assoc] at this ⊢
      simp only [hp, ne_eq, not_false_eq_true, if_true] at this ⊢
      rw [this]
      simp

/-- C5 (amended): a listing of well-formed records (non-empty path; path, commit,
branch name and further lines without line feed and without final carriage return;
further lines not blank and not recognised; every line below the scanner's token
limit), rendered with blank lines between records and with any ending after the last
record, is parsed into one worktree per record, in order, with the rendered path,
commit and branch (empty when the record has no branch line). -/
theorem git.parse_render (recs : List porcelain.Record) (e : porcelain.Ending)
    (h : ∀ r ∈ recs, r.WellFormed) :
    git.parseWorktrees (porcelain.render recs e) = recs.map porcelain.Record.toWorktree := by
  cases recs with
  | nil => cases e <;> decide
  | cons r rest =>
    unfold git.parseWorktrees
    rw [porcelain.scan_render r rest e h]
    have := git.parse_allLines (r :: rest) h [] (if e = .blank then [""] else [])
      (by cases e <;> simp)
    simpa using this

theorem git.parse_render_witness :
    (∀ r ∈ [(⟨"/src/app", "c0ffee", some "main", []⟩ : porcelain.Record),
        ⟨"/home/u/.wt/app-s1", "beef", none, ["detached", "locked"]⟩], r.WellFormed) ∧
    porcelain.render [⟨"/src/app", "c0ffee", some "main", []⟩,
        ⟨"/home/u/.wt/app-s1", "beef", none, ["detached", "locked"]⟩] .bare =
      "worktree /src/app\nHEAD c0ffee\nbranch refs/heads/main\n\nworktree /home/u/.wt/app-s1\nHEAD beef\ndetached\nlocked" ∧
    git.parseWorktrees (porcelain.render [⟨"/src/app", "c0ffee", some "main", []⟩,
        ⟨"/home/u/.wt/app-s1", "beef", none, ["detached", "locked"]⟩] .bare) =
      [⟨"/src/app", "c0ffee", "main"⟩, ⟨"/home/u/.wt/app-s1", "beef", ""⟩] :=
  ⟨by decide, by decide,
   git.parse_render [⟨"/src/app", "c0ffee", some "main", []⟩,
        ⟨"/home/u/.wt/app-s1", "beef", none, ["detached", "locked"]⟩] .bare (by decide)⟩

/-- C5 (as stated) fails: a record whose path ends in a carriage return is read back
with a different path, because the scanner drops a carriage return before the line
feed. -/
theorem git.parse_carriage_return_counterexample :
    porcelain.render [⟨"/tmp/a\r", "c0ffee", some "main", []⟩] .blank =
      "worktree /tmp/a\r\nHEAD c0ffee\nbranch refs/heads/main\n\n" ∧
    git.parseWorktrees (porcelain.render [⟨"/tmp/a\r", "c0ffee", some "main", []⟩] .blank) =
      [⟨"/tmp/a", "c0ffee", "main"⟩] ∧
    git.parseWorktrees (porcelain.render [⟨"/tmp/a\r", "c0ffee", some "main", []⟩] .blank) ≠
      [(⟨"/tmp/a\r", "c0ffee", some "main", []⟩ : porcelain.Record)].map
        porcelain.Record.toWorktree := by
  decide

/-! ## The log of git commands -/

theorem git.GetRepoRoot_log {σ : Type} (env : Env σ) (s : Sys σ) :
    (git.GetRepoRoot env s).2.log = s.log ++ [["rev-parse", "--show-toplevel"]] := by
  unfold git.GetRepoRoot runGit
  dsimp only
  split <;> rfl

theorem git.GetRepoName_log {σ : Type} (env : Env σ) (s : Sys σ) :
    (git.GetRepoName env s).2.log = s.log ++ [["rev-parse", "--show-toplevel"]] := by
  have h := git.GetRepoRoot_log env s
  unfold git.GetRepoName
  rcases hr : git.GetRepoRoot env s with ⟨r, s1⟩
  rw [hr] at h
  cases r <;> exact h

theorem git.FetchOrigin_log {σ : Type} (env : Env σ) (s : Sys σ) :
    (git.FetchOrigin env s).2.log = s.log ++ [["fetch", "origin"]] := by
  unfold git.FetchOrigin runGit
  dsimp only
  split <;> rfl

theorem git.HasCommits_log {σ : Type} (env : Env σ) (branch : String) (s : Sys σ) :
    (git.HasCommits env branch s).2.log = s.log ++ [["rev-parse", branch]] := rfl

theorem git.GetCurrentBranch_log {σ : Type} (env : Env σ) (s : Sys σ) :
    (git.GetCurrentBranch env s).2.log = s.log ++ [["rev-parse", "--abbrev-ref", "HEAD"]] := by
  unfold git.GetCurrentBranch runGit
  dsimp only
  split <;> rfl

/-- The commands `FastForwardBranch` runs are `rev-parse`, `pull` and `fetch` commands. -/
theorem git.FastForwardBranch_log {σ : Type} (env : Env σ) (branch : String) (s : Sys σ) :
    ∃ t, (git.FastForwardBranch env branch s).2.log = s.log ++ t ∧
      ∀ a ∈ t, a.head? ≠ some "branch" ∧ a.head? ≠ some "worktree" := by
  unfold git.FastForwardBranch
  dsimp only
  split
  · exact ⟨[["rev-parse", "--verify", "origin/" ++ branch]], rfl, by simp⟩
  · have hc := git.GetCurrentBranch_log env
      (runGit env ["rev-parse", "--verify", "origin/" ++ branch] s).2
    rcases hr : git.GetCurrentBranch env
      (runGit env ["rev-parse", "--verify", "origin/" ++ branch] s).2 with ⟨r, s1⟩
    rw [hr] at hc
    have hs1 : s1.log = s.log ++ [["rev-parse", "--verify", "origin/" ++ branch],
        ["rev-parse", "--abbrev-ref", "HEAD"]] := by
      rw [hc]; simp [runGit]
    cases r with
    | error e =>
      exact ⟨[["rev-parse", "--verify", "origin/" ++ branch],
        ["rev-parse", "--abbrev-ref", "HEAD"]], hs1, by simp⟩
    | ok cur =>
      dsimp only
      split
      · refine ⟨[["rev-parse", "--verify", "origin/" ++ branch],
            ["rev-parse", "--abbrev-ref", "HEAD"], ["pull", "--ff-only"]], ?_, by simp⟩
        split <;> simp [runGit, hs1]
      · exact ⟨[["rev-parse", "--verify", "origin/" ++ branch],
          ["rev-parse", "--abbrev-ref", "HEAD"], ["fetch", "origin", branch ++ ":" ++ branch]],
          by simp [runGit, hs1], by simp⟩

theorem git.DeleteBranch_log {σ : Type} (env : Env σ) (branch : String) (s : Sys σ) :
    (git.DeleteBranch env branch s).2.log = s.log ++ [["branch", "-D", branch]] := by
  unfold git.DeleteBranch runGit
  dsimp only
  split <;> rfl

/-! ## Create -/

/-- C7 (amended): when the repository name and the home directory resolve, the root
query and `MkdirAll` on the base directory leave the world as it is (the base
directory is already there) and an entry exists at the worktree path, `Create` fails
with the already-exists error; the world is unchanged and the only git command run
is the root query. -/
theorem session.create_existing_no_mutation {σ : Type} (env : Env σ) (name sourceBranch : String)
    (s s1 : Sys σ) (repo base path : String)
    (hrepo : git.GetRepoName env s = (.ok repo, s1))
    (hworld : s1.world = s.world)
    (hbase : session.GetWorktreeBaseDir env = .ok base)
    (hmk : env.MkdirAll base s.world = (none, s.world))
    (hpath : session.GetWorktreePath env repo name = .ok path)
    (hstat : env.Stat path s.world = true) :
    (session.Create env name sourceBranch s).1 =
        .error ("session '" ++ name ++ "' already exists at " ++ path) ∧
      (session.Create env name sourceBranch s).2.world = s.world ∧
      (session.Create env name sourceBranch s).2.log =
        s.log ++ [["rev-parse", "--show-toplevel"]] := by
  have hlog := git.GetRepoName_log env s
  rw [hrepo] at hlog
  simp only at hlog
  simp only [session.Create, hrepo, hbase, hworld, hmk, hpath, hstat, if_true]
  exact ⟨trivial, trivial, hlog⟩

/-- C8: when the workflow reaches the check of the source branch (the repository
name and home directory resolve, the base directory is in place, no entry exists at
the worktree path) and `HasCommits` is false there, `Create` fails with the
empty-source-branch error, and no `git branch` and no `git worktree` command has
been run by the call. -/
theorem session.create_empty_source {σ : Type} (env : Env σ) (name sourceBranch : String)
    (s s1 : Sys σ) (repo base path : String) (w2 : σ)
    (hrepo : git.GetRepoName env s = (.ok repo, s1))
    (hbase : session.GetWorktreeBaseDir env = .ok base)
    (hmk : env.MkdirAll base s1.world = (none, w2))
    (hpath : session.GetWorktreePath env repo name = .ok path)
    (hstat : env.Stat path w2 = false)
    (hcommits : (git.HasCommits env sourceBranch
        (git.FastForwardBranch env sourceBranch
          (git.FetchOrigin env { world := w2, log := s1.log }).2).2).1 = false) :
    (session.Create env name sourceBranch s).1 =
        .error ("source branch '" ++ sourceBranch ++ "' has no commits") ∧
      ∃ t, (session.Create env name sourceBranch s).2.log = s.log ++ t ∧
        ∀ a ∈ t, a.head? ≠ some "branch" ∧ a.head? ≠ some "worktree" := by
  have hlog := git.GetRepoName_log env s
  rw [hrepo] at hlog
  simp only at hlog
  simp only [session.Create, hrepo, hbase, hmk, hpath, hstat, hcommits, Bool.not_false,
    if_true, Bool.false_eq_true, if_false]
  refine ⟨trivial, ?_⟩
  obtain ⟨t, ht, hsafe⟩ := git.FastForwardBranch_log env sourceBranch
    (git.FetchOrigin env { world := w2, log := s1.log }).2
  refine ⟨[["rev-parse", "--show-toplevel"], ["fetch", "origin"]] ++ t ++
    [["rev-parse", sourceBranch]], ?_, ?_⟩
  · rw [git.HasCommits_log, ht, git.FetchOrigin_log, hlog]
    simp
  · intro a ha
    simp only [List.mem_append, List.mem_cons, List.mem_singleton, List.not_mem_nil,
      or_false] at ha
    rcases ha with ((rfl | rfl) | ha) | rfl
    · simp
    · simp
    · exact hsafe a ha
    · simp

theorem session.create_existing_no_mutation_witness :
    (session.Create (sim.env "/home/u") "d" "main" ⟨sim.threeSessions, []⟩).1 =
      .ok ⟨"d", "wt-d", "/home/u/.wt/app-d"⟩ ∧
    (sim.env "/home/u").Stat "/home/u/.wt/app-d"
      (session.Create (sim.env "/home/u") "d" "main" ⟨sim.threeSessions, []⟩).2.world = true ∧
    ((session.Create (sim.env "/home/u") "d" "main"
        (session.Create (sim.env "/home/u") "d" "main" ⟨sim.threeSessions, []⟩).2).1 =
        .error ("session '" ++ "d" ++ "' already exists at " ++ "/home/u/.wt/app-d") ∧
      (session.Create (sim.env "/home/u") "d" "main"
        (session.Create (sim.env "/home/u") "d" "main" ⟨sim.threeSessions, []⟩).2).2.world =
        (session.Create (sim.env "/home/u") "d" "main" ⟨sim.threeSessions, []⟩).2.world ∧
      (session.Create (sim.env "/home/u") "d" "main"
        (session.Create (sim.env "/home/u") "d" "main" ⟨sim.threeSessions, []⟩).2).2.log =
        (session.Create (sim.env "/home/u") "d" "main" ⟨sim.threeSessions, []⟩).2.log ++
          [["rev-parse", "--show-toplevel"]]) :=
  ⟨by decide, by decide,
   session.create_existing_no_mutation (sim.env "/home/u") "d" "main"
    (session.Create (sim.env "/home/u") "d" "main" ⟨sim.threeSessions, []⟩).2
    ⟨(session.Create (sim.env "/home/u") "d" "main" ⟨sim.threeSessions, []⟩).2.world,
     (session.Create (sim.env "/home/u") "d" "main" ⟨sim.threeSessions, []⟩).2.log ++
       [["rev-parse", "--show-toplevel"]]⟩
    "app" "/home/u/.wt" "/home/u/.wt/app-d"
    (by decide) rfl (by decide) (by decide) (by decide) (by decide)⟩

/-- C7 (as stated) fails: the name `a/../../x` has the worktree path `/home/u/x`,
outside the base directory; an entry exists there, `Create` fails with the
already-exists error, and by then it has created the missing base directory. -/
theorem session.create_existing_mkdir_counterexample :
    session.GetWorktreePath (sim.env "/home/u") "app" "a/../../x" = .ok "/home/u/x" ∧
    (sim.env "/home/u").Stat "/home/u/x" sim.noBaseDir = true ∧
    (session.Create (sim.env "/home/u") "a/../../x" "main" ⟨sim.noBaseDir, []⟩).1 =
      .error "session 'a/../../x' already exists at /home/u/x" ∧
    (session.Create (sim.env "/home/u") "a/../../x" "main" ⟨sim.noBaseDir, []⟩).2.world ≠
      sim.noBaseDir ∧
    (session.Create (sim.env "/home/u") "a/../../x" "main" ⟨sim.noBaseDir, []⟩).2.world.entries =
      ["/home/u", "/home/u/x", "/home/u/.wt"] := by
  decide

theorem session.create_empty_source_witness :
    (git.HasCommits (sim.env "/home/u") "nope"
        (git.FastForwardBranch (sim.env "/home/u") "nope"
          (git.FetchOrigin (sim.env "/home/u")
            { world := sim.threeSessions, log := [["rev-parse", "--show-toplevel"]] }).2).2).1 =
      false ∧
    ((session.Create (sim.env "/home/u") "d" "nope" ⟨sim.threeSessions, []⟩).1 =
        .error ("source branch '" ++ "nope" ++ "' has no commits") ∧
      ∃ t, (session.Create (sim.env "/home/u") "d" "nope" ⟨sim.threeSessions, []⟩).2.log =
          [] ++ t ∧
        ∀ a ∈ t, a.head? ≠ some "branch" ∧ a.head? ≠ some "worktree") :=
  ⟨by decide,
   session.create_empty_source (sim.env "/home/u") "d" "nope" ⟨sim.threeSessions, []⟩
    ⟨sim.threeSessions, [["rev-parse", "--show-toplevel"]]⟩ "app" "/home/u/.wt"
    "/home/u/.wt/app-d" sim.threeSessions (by decide) (by decide) (by decide) (by decide)
    (by decide) (by decide)⟩

/-- Whenever the workflow reaches the add step with a branch that already existed
and the add fails, `Create` returns the add error after running `DeleteBranch` on
that branch. -/
theorem session.create_reuse_add_failure {σ : Type} (env : Env σ) (name sourceBranch : String)
    (s s1 s5 s6 s7 : Sys σ) (repo base path e : String) (w2 : σ)
    (hrepo : git.GetRepoName env s = (.ok repo, s1))
    (hbase : session.GetWorktreeBaseDir env = .ok base)
    (hmk : env.MkdirAll base s1.world = (none, w2))
    (hpath : session.GetWorktreePath env repo name = .ok path)
    (hstat : env.Stat path w2 = false)
    (hcommits : git.HasCommits env sourceBranch
        (git.FastForwardBranch env sourceBranch
          (git.FetchOrigin env { world := w2, log := s1.log }).2).2 = (true, s5))
    (hexists : git.BranchExists env (session.GetBranchName name) s5 = (true, s6))
    (hadd : git.AddWorktree env path (session.GetBranchName name) s6 = (.error e, s7)) :
    session.Create env name sourceBranch s =
        (.error e, (git.DeleteBranch env (session.GetBranchName name) s7).2) ∧
      (session.Create env name sourceBranch s).2.log =
        s7.log ++ [["branch", "-D", "wt-" ++ name]] := by
  have hc : session.Create env name sourceBranch s =
      (.error e, (git.DeleteBranch env (session.GetBranchName name) s7).2) := by
    simp [session.Create, hrepo, hbase, hmk, hpath, hstat, hcommits, hexists, hadd]
  refine ⟨hc, ?_⟩
  rw [hc]
  exact git.DeleteBranch_log env _ s7

/-- C6: the code at the failing input.  The branch `wt-x` exists before the call and is
reused (no `git branch wt-x main` is run); adding the worktree fails; `Create` then
runs `git branch -D wt-x`, and the branch is gone. -/
theorem session.create_deletes_reused_branch :
    "wt-x" ∈ sim.reusedBranch.branches ∧
    session.Create (sim.env "/home/u") "x" "main" ⟨sim.reusedBranch, []⟩ =
      (.error "failed to create worktree: exit status 128",
       ⟨{ sim.reusedBranch with branches := ["main"] },
        [["rev-parse", "--show-toplevel"], ["fetch", "origin"],
         ["rev-parse", "--verify", "origin/main"], ["rev-parse", "main"],
         ["rev-parse", "--verify", "wt-x"],
         ["worktree", "add", "/home/u/.wt/app-x", "wt-x"],
         ["branch", "-D", "wt-x"]]⟩) := by
  decide

/-! ## RemoveAll -/

theorem session.attempted_append (a b : List (List String)) :
    session.attempted (a ++ b) = session.attempted a ++ session.attempted b := by
  unfold session.attempted
  exact List.filterMap_append _ _ _

theorem git.ListWorktrees_log {σ : Type} (env : Env σ) (s : Sys σ) :
    (git.ListWorktrees env s).2.log = s.log ++ [["worktree", "list", "--porcelain"]] := by
  unfold git.ListWorktrees runGit
  dsimp only
  split <;> rfl

theorem git.RemoveWorktree_log {σ : Type} (env : Env σ) (path : String) (s : Sys σ) :
    (git.RemoveWorktree env path s).2.log =
      s.log ++ [["worktree", "remove", "--force", path]] := by
  unfold git.RemoveWorktree runGit
  dsimp only
  split <;> rfl

/-- Listing the sessions asks for no removal. -/
theorem session.ListSessions_attempted {σ : Type} (env : Env σ) (s : Sys σ) :
    session.attempted (session.ListSessions env s).2.log = session.attempted s.log := by
  have h1 := git.GetRepoName_log env s
  unfold session.ListSessions
  rcases hr : git.GetRepoName env s with ⟨r, s1⟩
  rw [hr] at h1
  simp only at h1
  cases r with
  | error e =>
    simp only [h1, session.attempted_append]
    simp [session.attempted]
  | ok repo =>
    have h2 := git.ListWorktrees_log env s1
    rcases hw : git.ListWorktrees env s1 with ⟨r2, s2⟩
    rw [hw] at h2
    simp only at h2
    have h3 : session.attempted s2.log = session.attempted s.log := by
      rw [h2, h1, session.attempted_append, session.attempted_append]
      simp [session.attempted]
    simp only [hw]
    cases r2 with
    | error e => exact h3
    | ok wts =>
      dsimp only
      split <;> exact h3

theorem session.Find_attempted {σ : Type} (env : Env σ) (name : String) (s : Sys σ) :
    session.attempted (session.Find env name s).2.log = session.attempted s.log := by
  have h := session.ListSessions_attempted env s
  unfold session.Find
  rcases hr : session.ListSessions env s with ⟨r, s1⟩
  rw [hr] at h
  cases r <;> exact h

/-- When the name resolves, `Remove` asks for the removal of the resolved session's
worktree, and of no other, whatever the outcome of the removal. -/
theorem session.Remove_attempted {σ : Type} (env : Env σ) (name : String) (s : Sys σ)
    (y : session.Session) (h : (session.Find env name s).1 = .ok y) :
    session.attempted (session.Remove env name s).2.log = session.attempted s.log ++ [y.Path] := by
  have hf := session.Find_attempted env name s
  unfold session.Remove
  rcases hr : session.Find env name s with ⟨r, s1⟩
  rw [hr] at h hf
  simp only at h hf
  subst h
  have hrw := git.RemoveWorktree_log env y.Path s1
  rcases hrm : git.RemoveWorktree env y.Path s1 with ⟨r2, s2⟩
  rw [hrm] at hrw
  simp only at hrw
  have h2 : session.attempted s2.log = session.attempted s.log ++ [y.Path] := by
    rw [hrw, session.attempted_append, hf]
    simp [session.attempted]
  simp only [hrm]
  cases r2 with
  | error e => exact h2
  | ok u =>
    dsimp only
    rw [git.DeleteBranch_log, session.attempted_append, h2]
    simp [session.attempted]

theorem session.removeEach_attempted {σ : Type} (env : Env σ) (sessions : List session.Session)
    (s : Sys σ) (h : session.resolvesInTurn env sessions s = true) :
    session.attempted (session.removeEach env sessions s).log =
      session.attempted s.log ++ sessions.map (fun x => x.Path) := by
  induction sessions generalizing s with
  | nil => simp [session.removeEach]
  | cons x rest ih =>
    unfold session.resolvesInTurn at h
    rw [Bool.and_eq_true] at h
    obtain ⟨hx, hrest⟩ := h
    have hstep : session.attempted (session.Remove env x.Name s).2.log =
        session.attempted s.log ++ [x.Path] := by
      cases hfind : (session.Find env x.Name s).1 with
      | error e => rw [hfind] at hx; exact absurd hx (by simp)
      | ok y =>
        rw [hfind] at hx
        have hp : y.Path = x.Path := by simpa using hx
        rw [session.Remove_attempted env x.Name s y hfind, hp]
    have hgo : session.removeEach env (x :: rest) s =
        session.removeEach env rest (session.Remove env x.Name s).2 := by
      rw [session.removeEach]
      rcases session.Remove env x.Name s with ⟨r, s1⟩
      cases r <;> rfl
    rw [hgo, ih _ hrest, hstep]
    simp

/-- When the initial listing succeeds, `RemoveAll` returns success; and when each
listed session, at its turn, is still the one `Find` returns for its name, the
removals of worktrees that `RemoveAll` asks for are exactly those of the listed
sessions, in listing order, whatever removals fail. -/
theorem session.removeAll_attempts {σ : Type} (env : Env σ) (s s1 : Sys σ)
    (sessions : List session.Session)
    (hlist : session.ListSessions env s = (.ok sessions, s1)) :
    (session.RemoveAll env s).1 = .ok () ∧
      (session.resolvesInTurn env sessions s1 = true →
        session.attempted (session.RemoveAll env s).2.log =
          session.attempted s.log ++ sessions.map (fun x => x.Path)) := by
  have hl := session.ListSessions_attempted env s
  rw [hlist] at hl
  simp only at hl
  unfold session.RemoveAll
  rw [hlist]
  dsimp only
  split
  · rename_i h0
    have : sessions = [] := List.length_eq_zero.mp h0
    subst this
    exact ⟨rfl, fun _ => by simpa using hl⟩
  · refine ⟨rfl, fun hres => ?_⟩
    rw [session.removeEach_attempted env sessions s1 hres, hl]

theorem session.removeAll_attempts_witness :
    (git.RemoveWorktree (sim.env "/home/u") "/home/u/.wt/app-b"
        ⟨sim.threeSessions, []⟩).1 = .error "failed to remove worktree: fatal" ∧
    (session.RemoveAll (sim.env "/home/u") ⟨sim.threeSessions, []⟩).1 = .ok () ∧
    session.attempted (session.RemoveAll (sim.env "/home/u") ⟨sim.threeSessions, []⟩).2.log =
      session.attempted [] ++
        [(⟨"a", "wt-a", "/home/u/.wt/app-a"⟩ : session.Session),
         ⟨"b", "wt-b", "/home/u/.wt/app-b"⟩, ⟨"c", "wt-c", "/home/u/.wt/app-c"⟩].map
          (fun x => x.Path) ∧
    (session.RemoveAll (sim.env "/home/u") ⟨sim.threeSessions, []⟩).2.world.worktrees =
      [⟨"/src/app", "c0ffee", "main"⟩, ⟨"/home/u/.wt/app-b", "c0ffee", "wt-b"⟩] :=
  ⟨by decide,
   (session.removeAll_attempts (sim.env "/home/u") ⟨sim.threeSessions, []⟩
      ⟨sim.threeSessions, [["rev-parse", "--show-toplevel"], ["worktree", "list", "--porcelain"]]⟩
      [⟨"a", "wt-a", "/home/u/.wt/app-a"⟩, ⟨"b", "wt-b", "/home/u/.wt/app-b"⟩,
       ⟨"c", "wt-c", "/home/u/.wt/app-c"⟩] (by decide)).1,
   (session.removeAll_attempts (sim.env "/home/u") ⟨sim.threeSessions, []⟩
      ⟨sim.threeSessions, [["rev-parse", "--show-toplevel"], ["worktree", "list", "--porcelain"]]⟩
      [⟨"a", "wt-a", "/home/u/.wt/app-a"⟩, ⟨"b", "wt-b", "/home/u/.wt/app-b"⟩,
       ⟨"c", "wt-c", "/home/u/.wt/app-c"⟩] (by decide)).2 (by decide),
   by decide⟩

/-- C9: the code at the failing input.  `Create` for the names `x` and `y/app-x`
leaves two worktrees that `List` both names `x`.  With the first one locked, its
removal fails; the second turn of the loop of `RemoveAll` resolves the name `x` to
the first session again, so the removal of the first worktree is asked for twice
and that of the second worktree never, while `RemoveAll` returns success. -/
theorem session.removeAll_skips_twin :
    (session.Create (sim.env "/home/u") "x" "main" ⟨sim.noBaseDir, []⟩).1 =
      .ok ⟨"x", "wt-x", "/home/u/.wt/app-x"⟩ ∧
    (session.Create (sim.env "/home/u") "y/app-x" "main"
      (session.Create (sim.env "/home/u") "x" "main" ⟨sim.noBaseDir, []⟩).2).1 =
      .ok ⟨"y/app-x", "wt-y/app-x", "/home/u/.wt/app-y/app-x"⟩ ∧
    (session.Create (sim.env "/home/u") "y/app-x" "main"
      (session.Create (sim.env "/home/u") "x" "main" ⟨sim.noBaseDir, []⟩).2).2.world.worktrees =
      sim.twinNames.worktrees ∧
    (session.Create (sim.env "/home/u") "y/app-x" "main"
      (session.Create (sim.env "/home/u") "x" "main" ⟨sim.noBaseDir, []⟩).2).2.world.branches =
      sim.twinNames.branches ∧
    (session.ListSessions (sim.env "/home/u") ⟨sim.twinNames, []⟩).1 =
      .ok [⟨"x", "wt-x", "/home/u/.wt/app-x"⟩,
           ⟨"x", "wt-y/app-x", "/home/u/.wt/app-y/app-x"⟩] ∧
    (git.RemoveWorktree (sim.env "/home/u") "/home/u/.wt/app-x" ⟨sim.twinNames, []⟩).1 =
      .error "failed to remove worktree: fatal" ∧
    (session.RemoveAll (sim.env "/home/u") ⟨sim.twinNames, []⟩).1 = .ok () ∧
    session.attempted (session.RemoveAll (sim.env "/home/u") ⟨sim.twinNames, []⟩).2.log =
      ["/home/u/.wt/app-x", "/home/u/.wt/app-x"] ∧
    "/home/u/.wt/app-y/app-x" ∉
      session.attempted (session.RemoveAll (sim.env "/home/u") ⟨sim.twinNames, []⟩).2.log ∧
    (session.RemoveAll (sim.env "/home/u") ⟨sim.twinNames, []⟩).2.world.worktrees =
      sim.twinNames.worktrees := by
  decide

/-! ## The conventional path, listed back -/

theorem filepath.splitOnChar_ne_nil (sep : Char) (l : List Char) :
    filepath.splitOnChar sep l ≠ [] := by
  cases l with
  | nil => simp [filepath.splitOnChar]
  | cons c cs =>
    unfold filepath.splitOnChar
    split
    · simp
    · split <;> simp

theorem filepath.splitOnChar_append_sep (sep : Char) (a b : List Char) :
    filepath.splitOnChar sep (a ++ sep :: b) =
      filepath.splitOnChar sep a ++ filepath.splitOnChar sep b := by
  induction a with
  | nil => simp [filepath.splitOnChar]
  | cons c cs ih =>
    by_cases hc : c = sep
    · simp [filepath.splitOnChar, hc, ih]
    · have hne := filepath.splitOnChar_ne_nil sep cs
      cases hs : filepath.splitOnChar sep cs with
      | nil => exact absurd hs hne
      | cons l ls =>
        rw [hs] at ih
        simp [filepath.splitOnChar, hc, ih, hs]

theorem filepath.splitOnChar_of_not_mem (sep : Char) (l : List Char) (h : sep ∉ l) :
    filepath.splitOnChar sep l = [l] := by
  induction l with
  | nil => rfl
  | cons c cs ih =>
    have hc : c ≠ sep := fun e => h (by simp [e])
    have hcs : sep ∉ cs := fun e => h (by simp [e])
    simp [filepath.splitOnChar, hc, ih hcs]

theorem filepath.splitOnChar_pieces (sep : Char) (l : List Char) :
    ∀ p ∈ filepath.splitOnChar sep l, sep ∉ p := by
  induction l with
  | nil => simp [filepath.splitOnChar]
  | cons c cs ih =>
    by_cases hc : c = sep
    · intro p hp
      simp only [filepath.splitOnChar, hc, if_true, List.mem_cons] at hp
      rcases hp with rfl | hp
      · simp
      · exact ih p hp
    · cases hs : filepath.splitOnChar sep cs with
      | nil => exact absurd hs (filepath.splitOnChar_ne_nil sep cs)
      | cons l ls =>
        rw [hs] at ih
        intro p hp
        simp only [filepath.splitOnChar, hc, if_false, hs, List.mem_cons] at hp
        rcases hp with rfl | hp
        · intro hm
          rcases List.mem_cons.mp hm with e | hm
          · exact hc e.symm
          · exact ih l (List.mem_cons_self _ _) hm
        · exact ih p (List.mem_cons_of_mem _ hp)

theorem filepath.cleanStep_plain (rooted : Bool) (out : List String) (c : String)
    (h : filepath.plainElem c) : filepath.cleanStep rooted out c = c :: out := by
  obtain ⟨h0, h1, h2, -⟩ := h
  simp [filepath.cleanStep, h0, h1, h2]

theorem filepath.cleanStack_nil (rooted : Bool) : filepath.cleanStack rooted [] :=
  ⟨[], 0, by simp, by simp, fun _ => rfl⟩

theorem filepath.cleanStack_step (rooted : Bool) (out : List String) (c : String)
    (h : filepath.cleanStack rooted out) (hc : '/' ∉ c.data) :
    filepath.cleanStack rooted (filepath.cleanStep rooted out c) := by
  by_cases h0 : c = "" ∨ c = "."
  · simpa [filepath.cleanStep, h0] using h
  · by_cases h2 : c = ".."
    · subst h2
      obtain ⟨body, k, rfl, hbody, hk⟩ := h
      cases body with
      | nil =>
        cases k with
        | zero =>
          cases rooted with
          | true => exact ⟨[], 0, by simp [filepath.cleanStep], by simp, fun _ => rfl⟩
          | false =>
            exact ⟨[], 1, by simp [filepath.cleanStep, List.replicate], by simp, by simp⟩
        | succ k =>
          cases rooted with
          | true => exact absurd (hk rfl) (by simp)
          | false =>
            exact ⟨[], k + 2, by simp [filepath.cleanStep, List.replicate], by simp, by simp⟩
      | cons b body2 =>
        have hb : b ≠ ".." := (hbody b (List.mem_cons_self _ _)).2.2.1
        exact ⟨body2, k, by simp [filepath.cleanStep, hb],
          fun x hx => hbody x (List.mem_cons_of_mem _ hx), hk⟩
    · have hp : filepath.plainElem c := by
        rw [not_or] at h0
        exact ⟨h0.1, h0.2, h2, hc⟩
      rw [filepath.cleanStep_plain rooted out c hp]
      obtain ⟨body, k, rfl, hbody, hk⟩ := h
      refine ⟨c :: body, k, by simp, ?_, hk⟩
      intro x hx
      rcases List.mem_cons.mp hx with rfl | hx
      · exact hp
      · exact hbody x hx

theorem filepath.cleanStack_foldl (rooted : Bool) (l : List String) (acc : List String)
    (h : filepath.cleanStack rooted acc) (hl : ∀ c ∈ l, '/' ∉ c.data) :
    filepath.cleanStack rooted (l.foldl (filepath.cleanStep rooted) acc) := by
  induction l generalizing acc with
  | nil => exact h
  | cons c rest ih =>
    rw [List.foldl_cons]
    exact ih _ (filepath.cleanStack_step rooted acc c h (hl c (List.mem_cons_self _ _)))
      (fun x hx => hl x (List.mem_cons_of_mem _ hx))

theorem filepath.foldl_plain (rooted : Bool) (l : List String) (acc : List String)
    (hl : ∀ c ∈ l, filepath.plainElem c) :
    l.foldl (filepath.cleanStep rooted) acc = l.reverse ++ acc := by
  induction l generalizing acc with
  | nil => simp
  | cons c rest ih =>
    rw [List.foldl_cons, filepath.cleanStep_plain rooted acc c (hl c (List.mem_cons_self _ _)),
      ih _ (fun x hx => hl x (List.mem_cons_of_mem _ hx))]
    simp

theorem filepath.foldl_dotdot (j k : Nat) :
    (List.replicate k "..").foldl (filepath.cleanStep false) (List.replicate j "..") =
      List.replicate (j + k) ".." := by
  induction k generalizing j with
  | zero => simp
  | succ k ih =>
    rw [List.replicate_succ, List.foldl_cons]
    have hstep : filepath.cleanStep false (List.replicate j "..") ".." =
        List.replicate (j + 1) ".." := by
      cases j with
      | zero => simp [filepath.cleanStep]
      | succ j => simp [filepath.cleanStep, List.replicate]
    rw [hstep, ih]
    congr 1
    omega

/-- Cleaning the elements of a clean stack again gives the same stack. -/
theorem filepath.foldl_replay (rooted : Bool) (out : List String)
    (h : filepath.cleanStack rooted out) :
    out.reverse.foldl (filepath.cleanStep rooted) [] = out := by
  obtain ⟨body, k, rfl, hbody, hk⟩ := h
  rw [List.reverse_append, List.reverse_replicate, List.foldl_append]
  have hdots : (List.replicate k "..").foldl (filepath.cleanStep rooted) [] =
      List.replicate k ".." := by
    cases rooted with
    | true => rw [hk rfl]; rfl
    | false => simpa using filepath.foldl_dotdot 0 k
  rw [hdots, filepath.foldl_plain rooted _ _ (fun c hc => hbody c (List.mem_reverse.mp hc))]
  simp

theorem strings.join_ne_empty (a : String) (rest : List String) (sep : String) (ha : a ≠ "") :
    strings.Join (a :: rest) sep ≠ "" := by
  cases rest with
  | nil => simpa [strings.Join] using ha
  | cons b rest2 =>
    rw [strings.join_cons_cons, String.append_assoc]
    exact strings.append_ne_empty _ _ ha

theorem strings.join_concat (l : List String) (c sep : String) (hl : l ≠ []) :
    strings.Join (l ++ [c]) sep = strings.Join l sep ++ sep ++ c := by
  induction l with
  | nil => exact absurd rfl hl
  | cons a rest ih =>
    cases rest with
    | nil => simp [strings.Join]
    | cons b rest2 =>
      have := ih (by simp)
      simp only [List.cons_append] at this ⊢
      rw [strings.join_cons_cons, this, strings.join_cons_cons]
      simp [String.append_assoc]

/-- Elements without separator, joined by separators, split back into the elements. -/
theorem filepath.splitOnChar_join (l : List String) (hl : l ≠ [])
    (h : ∀ c ∈ l, '/' ∉ c.data) :
    filepath.splitOnChar '/' (strings.Join l "/").data = l.map (fun c => c.data) := by
  induction l with
  | nil => exact absurd rfl hl
  | cons a rest ih =>
    cases rest with
    | nil =>
      simpa [strings.Join] using
        filepath.splitOnChar_of_not_mem '/' a.data (h a (List.mem_cons_self _ _))
    | cons b rest2 =>
      rw [strings.join_cons_cons]
      have e : (a ++ "/" ++ strings.Join (b :: rest2) "/").data =
          a.data ++ '/' :: (strings.Join (b :: rest2) "/").data := by
        simp [String.data_append]
      rw [e, filepath.splitOnChar_append_sep,
        filepath.splitOnChar_of_not_mem '/' a.data (h a (List.mem_cons_self _ _)),
        ih (by simp) (fun c hc => h c (List.mem_cons_of_mem _ hc))]
      simp

theorem filepath.cleanStack_elems (rooted : Bool) (out : List String)
    (h : filepath.cleanStack rooted out) : ∀ c ∈ out, c ≠ "" ∧ '/' ∉ c.data := by
  obtain ⟨body, k, rfl, hbody, -⟩ := h
  intro c hc
  rcases List.mem_append.mp hc with hc | hc
  · exact ⟨(hbody c hc).1, (hbody c hc).2.2.2⟩
  · rw [List.eq_of_mem_replicate hc]
    exact ⟨by decide, by decide⟩

theorem filepath.Clean_eq (p : String) (hp : p ≠ "") (b : Bool)
    (hb : decide (p.data.head? = some '/') = b) (out : List String)
    (hout : ((filepath.splitOnChar '/' p.data).map String.mk).foldl
      (filepath.cleanStep b) [] = out)
    (hne : strings.Join out.reverse "/" ≠ "") :
    filepath.Clean p = (if b = true then "/" else "") ++ strings.Join out.reverse "/" := by
  unfold filepath.Clean
  rw [if_neg hp]
  dsimp only
  rw [hb, hout]
  have hif : (if p.data.head? = some '/' then "/" else "") = (if b = true then "/" else "") := by
    subst hb
    by_cases h : p.data.head? = some '/' <;> simp [h]
  rw [hif]
  have hr : (if b = true then "/" else "") ++ strings.Join out.reverse "/" ≠ "" := by
    intro e
    apply hne
    have := congrArg String.data e
    rw [String.data_append] at this
    exact String.ext (List.append_eq_nil.mp this).2
  rw [if_neg hr]

theorem strings.join_data_cons (a : String) (rest : List String) (sep : String) :
    ∃ t, (strings.Join (a :: rest) sep).data = a.data ++ t := by
  cases rest with
  | nil => exact ⟨[], by simp [strings.Join]⟩
  | cons b rest2 =>
    exact ⟨sep.data ++ (strings.Join (b :: rest2) sep).data, by
      rw [strings.join_cons_cons]; simp [String.data_append]⟩

/-- A clean path, written out from its stack of elements, stays as it is when a
plain element is joined to it and the result is cleaned. -/
theorem filepath.Clean_extend (b : Bool) (out : List String)
    (hs : filepath.cleanStack b out) (hne : out ≠ []) (d : String)
    (hd : filepath.plainElem d) :
    filepath.Clean ((if b = true then "/" else "") ++ strings.Join out.reverse "/" ++ "/" ++ d) =
      (if b = true then "/" else "") ++ strings.Join out.reverse "/" ++ "/" ++ d := by
  have helems := filepath.cleanStack_elems b out hs
  have hrev : out.reverse ≠ [] := by simpa using hne
  obtain ⟨a, rest, hcons⟩ : ∃ a rest, out.reverse = a :: rest := by
    cases h : out.reverse with
    | nil => exact absurd h hrev
    | cons a rest => exact ⟨a, rest, rfl⟩
  have ha : a ≠ "" ∧ '/' ∉ a.data :=
    helems a (List.mem_reverse.mp (by rw [hcons]; exact List.mem_cons_self _ _))
  have hsplitJ : filepath.splitOnChar '/' (strings.Join out.reverse "/").data =
      out.reverse.map (fun c => c.data) :=
    filepath.splitOnChar_join _ hrev (fun c hc => (helems c (List.mem_reverse.mp hc)).2)
  have hpdata : ((if b = true then "/" else "") ++ strings.Join out.reverse "/" ++ "/" ++ d).data =
      ((if b = true then "/" else "") ++ strings.Join out.reverse "/").data ++ '/' :: d.data := by
    simp [String.data_append]
  have hp : (if b = true then "/" else "") ++ strings.Join out.reverse "/" ++ "/" ++ d ≠ "" := by
    intro e
    have := congrArg String.data e
    rw [hpdata] at this
    simp at this
  -- the first character
  have hhead : decide
      (((if b = true then "/" else "") ++ strings.Join out.reverse "/" ++ "/" ++ d).data.head? =
        some '/') = b := by
    rw [hpdata]
    cases b with
    | true => simp [String.data_append]
    | false =>
      obtain ⟨t, ht⟩ := strings.join_data_cons a rest "/"
      have hadata : a.data ≠ [] := fun e => ha.1 (String.ext (by simpa using e))
      obtain ⟨x, xs, hx⟩ : ∃ x xs, a.data = x :: xs := by
        cases h : a.data with
        | nil => exact absurd h hadata
        | cons x xs => exact ⟨x, xs, rfl⟩
      have hxne : x ≠ '/' := fun e => ha.2 (by rw [hx, e]; exact List.mem_cons_self _ _)
      simp [String.data_append, hcons, ht, hx, hxne]
  -- the elements
  have hcomps : (filepath.splitOnChar '/'
      ((if b = true then "/" else "") ++ strings.Join out.reverse "/" ++ "/" ++ d).data).map
        String.mk = (if b = true then [""] else []) ++ out.reverse ++ [d] := by
    rw [hpdata, filepath.splitOnChar_append_sep,
      filepath.splitOnChar_of_not_mem '/' d.data hd.2.2.2]
    cases b with
    | true =>
      have e : (("/" : String) ++ strings.Join out.reverse "/").data =
          [] ++ '/' :: (strings.Join out.reverse "/").data := by
        simp [String.data_append]
      simp only [if_true]
      rw [e, filepath.splitOnChar_append_sep, hsplitJ]
      simp [filepath.splitOnChar, List.map_map, Function.comp_def]
    | false =>
      have e : (("" : String) ++ strings.Join out.reverse "/").data =
          (strings.Join out.reverse "/").data := by
        simp [String.data_append]
      simp only [Bool.false_eq_true, if_false]
      rw [e, hsplitJ]
      simp [List.map_map, Function.comp_def]
  have hfold : ((filepath.splitOnChar '/'
      ((if b = true then "/" else "") ++ strings.Join out.reverse "/" ++ "/" ++ d).data).map
        String.mk).foldl (filepath.cleanStep b) [] = d :: out := by
    rw [hcomps, List.foldl_append, List.foldl_append]
    have h1 : (if b = true then [""] else []).foldl (filepath.cleanStep b) [] = [] := by
      cases b <;> simp [filepath.cleanStep]
    rw [h1, filepath.foldl_replay b out hs]
    simp [filepath.cleanStep_plain b out d hd]
  have hjoin : strings.Join (d :: out).reverse "/" = strings.Join out.reverse "/" ++ "/" ++ d := by
    rw [List.reverse_cons, strings.join_concat _ _ _ hrev]
  have hne2 : strings.Join (d :: out).reverse "/" ≠ "" := by
    rw [hjoin, hcons, String.append_assoc]
    exact strings.append_ne_empty _ _ (strings.join_ne_empty a rest "/" ha.1)
  rw [filepath.Clean_eq _ hp b hhead (d :: out) hfold hne2, hjoin]
  simp [String.append_assoc]

theorem filepath.plainElem_wt : filepath.plainElem ".wt" := by
  unfold filepath.plainElem; decide

/-- Joining a plain element to any path gives a clean path that a further plain
element extends literally. -/
theorem filepath.Join_extend (a c d : String) (hc : filepath.plainElem c)
    (hd : filepath.plainElem d) :
    filepath.Join (filepath.Join a c) d = filepath.Join a c ++ "/" ++ d := by
  -- the path handed to `Clean` by the inner join, and its last element
  obtain ⟨p, hJ, hp, pre, hsplit⟩ : ∃ p, filepath.Join a c = filepath.Clean p ∧ p ≠ "" ∧
      ∃ pre, (filepath.splitOnChar '/' p.data).map String.mk = pre ++ [c] ∧
        ∀ x ∈ pre, '/' ∉ x.data := by
    by_cases ha : a = ""
    · refine ⟨c, by simp [filepath.Join, ha, hc.1], hc.1, [], ?_, by simp⟩
      rw [filepath.splitOnChar_of_not_mem '/' c.data hc.2.2.2]
      rfl
    · refine ⟨a ++ "/" ++ c, by simp [filepath.Join, ha], ?_,
        (filepath.splitOnChar '/' a.data).map String.mk, ?_, ?_⟩
      · rw [String.append_assoc]
        exact strings.append_ne_empty _ _ ha
      · have e : (a ++ "/" ++ c).data = a.data ++ '/' :: c.data := by
          simp [String.data_append]
        rw [e, filepath.splitOnChar_append_sep,
          filepath.splitOnChar_of_not_mem '/' c.data hc.2.2.2]
        simp
      · intro x hx
        obtain ⟨l, hl, rfl⟩ := List.mem_map.mp hx
        exact filepath.splitOnChar_pieces '/' a.data l hl
  obtain ⟨hsplit, hpre⟩ := hsplit
  generalize hb : decide (p.data.head? = some '/') = b
  have hstack : filepath.cleanStack b (pre.foldl (filepath.cleanStep b) []) :=
    filepath.cleanStack_foldl b pre [] (filepath.cleanStack_nil b) hpre
  have hfold : ((filepath.splitOnChar '/' p.data).map String.mk).foldl
      (filepath.cleanStep b) [] = c :: pre.foldl (filepath.cleanStep b) [] := by
    rw [hsplit, List.foldl_append]
    simp [filepath.cleanStep_plain b _ c hc]
  have hstack2 : filepath.cleanStack b (c :: pre.foldl (filepath.cleanStep b) []) := by
    have := filepath.cleanStack_step b _ c hstack hc.2.2.2
    rwa [filepath.cleanStep_plain b _ c hc] at this
  have hne : strings.Join (c :: pre.foldl (filepath.cleanStep b) []).reverse "/" ≠ "" := by
    have helems := filepath.cleanStack_elems b _ hstack2
    cases hr : (c :: pre.foldl (filepath.cleanStep b) []).reverse with
    | nil => simp at hr
    | cons x rest =>
      exact strings.join_ne_empty x rest "/"
        (helems x (List.mem_reverse.mp (by rw [hr]; exact List.mem_cons_self _ _))).1
  have hclean := filepath.Clean_eq p hp b hb _ hfold hne
  have hB : filepath.Join a c ≠ "" := by
    rw [hJ, hclean]
    intro e
    apply hne
    have := congrArg String.data e
    rw [String.data_append] at this
    exact String.ext (List.append_eq_nil.mp this).2
  have hJoin : filepath.Join (filepath.Join a c) d =
      filepath.Clean (filepath.Join a c ++ "/" ++ d) := by
    generalize filepath.Join a c = B at hB
    unfold filepath.Join
    rw [if_pos hB]
  rw [hJoin, hJ, hclean]
  exact filepath.Clean_extend b _ hstack2 (by simp) d hd

theorem filepath.Base_append (B d : String) (hd : d ≠ "") (hs : '/' ∉ d.data) :
    filepath.Base (B ++ "/" ++ d) = d := by
  have hne : B ++ "/" ++ d ≠ "" := by
    intro e
    have := congrArg String.data e
    simp [String.data_append] at this
  have hdd : d.data ≠ [] := fun e => hd (String.ext (by simpa using e))
  have hdata : (B ++ "/" ++ d).data = (B.data ++ ['/']) ++ d.data := by
    simp [String.data_append]
  unfold filepath.Base
  rw [if_neg hne]
  dsimp only
  have hstrip : (B ++ "/" ++ d).data.rdropWhile (fun c => decide (c = '/')) =
      (B ++ "/" ++ d).data := by
    rw [List.rdropWhile_eq_self_iff]
    intro hl
    have hlast : (B ++ "/" ++ d).data.getLast hl ∈ d.data := by
      have : (B ++ "/" ++ d).data.getLast hl = d.data.getLast hdd := by
        simp only [hdata]
        exact List.getLast_append_of_ne_nil hdd
      rw [this]
      exact List.getLast_mem hdd
    intro hc
    have : (B ++ "/" ++ d).data.getLast hl = '/' := by simpa using hc
    rw [this] at hlast
    exact hs hlast
  rw [hstrip]
  have htake : (B ++ "/" ++ d).data.rtakeWhile (fun c => decide (c ≠ '/')) = d.data := by
    rw [hdata, List.rtakeWhile, List.reverse_append, List.reverse_append,
      List.takeWhile_append_of_pos (fun a ha => by
        have : a ∈ d.data := List.mem_reverse.mp ha
        simpa using fun e : a = '/' => hs (e ▸ this))]
    simp
  rw [htake, if_neg hdd]

theorem session.plainElem_dirName (R S : String) (hR : '/' ∉ R.data) (hS : '/' ∉ S.data) :
    filepath.plainElem (R ++ "-" ++ S) := by
  have hdata : (R ++ "-" ++ S).data = R.data ++ '-' :: S.data := by
    simp [String.data_append]
  have hmem : '-' ∈ (R ++ "-" ++ S).data := by rw [hdata]; simp
  refine ⟨?_, ?_, ?_, ?_⟩
  · intro e; rw [e] at hmem; exact absurd hmem (by decide)
  · intro e; rw [e] at hmem; exact absurd hmem (by decide)
  · intro e; rw [e] at hmem; exact absurd hmem (by decide)
  · rw [hdata]
    intro h
    rcases List.mem_append.mp h with h | h
    · exact hR h
    · rcases List.mem_cons.mp h with e | h
      · exact absurd e (by decide)
      · exact hS h

/-- For names without a path separator, the conventional path is the base
directory, a separator, and the directory name `R-S`. -/
theorem session.conventional_path (σ : Type) (env : Env σ) (R S B : String)
    (hR : '/' ∉ R.data) (hS : '/' ∉ S.data)
    (hB : session.GetWorktreeBaseDir env = .ok B) :
    session.GetWorktreePath env R S = .ok (B ++ "/" ++ (R ++ "-" ++ S)) := by
  unfold session.GetWorktreePath
  rw [hB]
  unfold session.GetWorktreeBaseDir at hB
  cases hh : env.UserHomeDir with
  | error e => rw [hh] at hB; cases hB
  | ok home =>
    rw [hh] at hB
    simp only [Except.ok.injEq] at hB
    subst hB
    simp only [session.WorktreeBaseDir]
    rw [filepath.Join_extend home ".wt" (R ++ "-" ++ S) filepath.plainElem_wt
      (session.plainElem_dirName R S hR hS)]

/-- For a repository name and a session name without a path separator, a worktree
at the conventional path is kept by the filter of `List`, as a session with exactly
that name, and `Find` returns a session of that name. -/
theorem session.conventional_path_listed (σ : Type) (env : Env σ) (R S B path : String)
    (hR : '/' ∉ R.data) (hS : '/' ∉ S.data)
    (hB : session.GetWorktreeBaseDir env = .ok B)
    (hp : session.GetWorktreePath env R S = .ok path)
    (W : List git.Worktree) (w : git.Worktree) (hw : w ∈ W) (hwp : w.Path = path) :
    { Name := S, Branch := w.Branch, Path := path } ∈ session.listSessions R B W ∧
      ∃ s, session.findIn (session.listSessions R B W) S = .ok s ∧ s.Name = S := by
  have hpath : path = B ++ "/" ++ (R ++ "-" ++ S) := by
    have := session.conventional_path σ env R S B hR hS hB
    rw [hp] at this
    exact Except.ok.inj this
  have hd := session.plainElem_dirName R S hR hS
  have hbase : filepath.Base w.Path = R ++ "-" ++ S := by
    rw [hwp, hpath]
    exact filepath.Base_append B _ hd.1 hd.2.2.2
  have hpre1 : strings.HasPrefix w.Path B = true := by
    rw [hwp, hpath, String.append_assoc]
    exact strings.hasPrefix_append B _
  have hmem : ({ Name := S, Branch := w.Branch, Path := path } : session.Session) ∈
      session.listSessions R B W := by
    rw [session.listSessions_eq, List.mem_map]
    refine ⟨w, ?_, ?_⟩
    · rw [List.mem_filter, Bool.and_eq_true]
      exact ⟨hw, hpre1, by rw [hbase]; exact strings.hasPrefix_append _ _⟩
    · rw [hbase, strings.trimPrefix_append, hwp]
  refine ⟨hmem, ?_⟩
  obtain ⟨s, _, _, hf, hn, _, _⟩ :=
    session.findExact_some S (session.listSessions R B W) ⟨_, hmem, rfl⟩
  exact ⟨s, by simp [session.findIn, hf], hn⟩

theorem session.conventional_path_listed_example :
    session.GetWorktreePath (sim.env "/home/u") "app" "auth-feature" =
      .ok "/home/u/.wt/app-auth-feature" ∧
    ((⟨"auth-feature", "wt-auth-feature", "/home/u/.wt/app-auth-feature"⟩ : session.Session) ∈
        session.listSessions "app" "/home/u/.wt"
          [⟨"/src/app", "c0ffee", "main"⟩,
           ⟨"/home/u/.wt/app-auth-feature", "c0ffee", "wt-auth-feature"⟩] ∧
      ∃ s, session.findIn (session.listSessions "app" "/home/u/.wt"
          [⟨"/src/app", "c0ffee", "main"⟩,
           ⟨"/home/u/.wt/app-auth-feature", "c0ffee", "wt-auth-feature"⟩]) "auth-feature" =
          .ok s ∧ s.Name = "auth-feature") :=
  ⟨by decide,
   session.conventional_path_listed sim.World (sim.env "/home/u") "app" "auth-feature"
    "/home/u/.wt" "/home/u/.wt/app-auth-feature" (by decide) (by decide) (by decide) (by decide)
    [⟨"/src/app", "c0ffee", "main"⟩,
     ⟨"/home/u/.wt/app-auth-feature", "c0ffee", "wt-auth-feature"⟩]
    ⟨"/home/u/.wt/app-auth-feature", "c0ffee", "wt-auth-feature"⟩ (by decide) rfl⟩

/-- C11: the code at the failing input.  For the session name `feature/login` the
conventional path is `<base>/app-feature/login`; `Create` succeeds there and returns
a session of that name, but the filter of `List` drops the worktree (its final
segment is `login`) and `Find` does not find the name.  For the name `y/app-x` the
worktree is kept, under the other name `x`. -/
theorem session.slash_name_not_listed :
    session.GetWorktreePath (sim.env "/home/u") "app" "feature/login" =
      .ok "/home/u/.wt/app-feature/login" ∧
    session.listSessions "app" "/home/u/.wt"
      [⟨"/home/u/.wt/app-feature/login", "c0ffee", "wt-feature/login"⟩] = [] ∧
    (session.Create (sim.env "/home/u") "feature/login" "main" ⟨sim.noBaseDir, []⟩).1 =
      .ok ⟨"feature/login", "wt-feature/login", "/home/u/.wt/app-feature/login"⟩ ∧
    (session.ListSessions (sim.env "/home/u")
      (session.Create (sim.env "/home/u") "feature/login" "main" ⟨sim.noBaseDir, []⟩).2).1 =
      .ok [] ∧
    (session.Find (sim.env "/home/u") "feature/login"
      (session.Create (sim.env "/home/u") "feature/login" "main" ⟨sim.noBaseDir, []⟩).2).1 =
      .error "session 'feature/login' not found" ∧
    session.GetWorktreePath (sim.env "/home/u") "app" "y/app-x" =
      .ok "/home/u/.wt/app-y/app-x" ∧
    session.listSessions "app" "/home/u/.wt"
      [⟨"/home/u/.wt/app-y/app-x", "c0ffee", "wt-y/app-x"⟩] =
      [⟨"x", "wt-y/app-x", "/home/u/.wt/app-y/app-x"⟩] := by
  decide
